import Mathlib

/-!
Verification development for the hdmf DynamicTable column model
(`src/hdmf/common/table.py`) and the container ownership graph
(`src/hdmf/container.py`).

The Python source is shallowly embedded: each Python method used by a claim
is translated into an executable Lean definition over lists and naturals.
Machine unsigned integers (`numpy` uint8/16/32/64) are modelled as `Nat`
with explicit `% 2 ^ w` where the source casts to a width.  Fallible code
(Python exceptions) returns `Option`/explicit error codes.
-/

namespace Hdmf

/-! ## VectorIndex (`table.py`, class `VectorIndex`)

A `VectorIndex` is a column of monotonically non-decreasing cumulative
end-offsets into a target `VectorData`, or into another `VectorIndex`
(multi-level ragged chains).  The stored offsets are kept at the narrowest
numpy unsigned width whose maximum value is `maxval`
(`self.__maxval` in the source, one of `2^8-1, 2^16-1, 2^32-1, 2^64-1`).

`Ragged α` is the type of values handed to `add_vector`: a flat vector of
scalars for a single-level index, or a list of nested vectors for a
multi-level chain.  `VIState α` is the object graph of one index chain:
the outermost `VectorIndex` down to the backing `VectorData`.
-/

/-- A ragged value: what `VectorIndex.add_vector` receives.  `flat` is a
plain Python list of scalars; `nest` is a list of nested ragged values
(for chains where `self.target` is itself a `VectorIndex`). -/
inductive Ragged (α : Type) where
  | flat : List α → Ragged α
  | nest : List (Ragged α) → Ragged α

/-- The state of a `VectorIndex` chain: `index data maxval target` holds the
stored offset list `self.data`, the current width bound `self.__maxval`,
and the target column `self.target`; `base l` is the flat backing
`VectorData` with data `l`. -/
inductive VIState (α : Type) where
  | base : List α → VIState α
  | index : List Nat → Nat → VIState α → VIState α
deriving Repr, DecidableEq

namespace VIState

/-- `len(self.target)` as seen from the enclosing index: for a `VectorData`
this is the length of its data; for a `VectorIndex` the length of its
offset list (`Data.__len__`). -/
def tlen {α : Type} : VIState α → Nat
  | .base l => l.length
  | .index d _ _ => d.length

/-- Number of index levels above the backing `VectorData`. -/
def depth {α : Type} : VIState α → Nat
  | .base _ => 0
  | .index _ _ t => depth t + 1

end VIState

/-- One pass of the `while idx > self.__maxval` loop of
`VectorIndex.__check_precision`: doubles the bit width
(`nbits = log2(maxval+1) * 2`) until `idx` fits, failing (`none`, the
source raises `ValueError`) when the width would reach 128 bits.
The `fuel` argument bounds the recursion; from any maxval of the form
`2^w - 1` with `w ∈ {8,16,32,64}` the loop body runs at most four times,
so the fuel of 5 used below never runs out on reachable states. -/
def checkPrecisionLoop : Nat → Nat → Nat → Option Nat
  | 0, _, _ => none
  | fuel + 1, maxval, idx =>
    if maxval < idx then
      let nbits := 2 * Nat.log2 (maxval + 1)
      if nbits = 128 then none
      else checkPrecisionLoop fuel (2 ^ nbits - 1) idx
    else some maxval

/-- `VectorIndex.__check_precision(idx)` reduced to its effect on
`self.__maxval`: the resulting maxval, or `none` when the source raises
the 64-bit-ceiling `ValueError`. -/
def checkPrecision (maxval idx : Nat) : Option Nat :=
  checkPrecisionLoop 5 maxval idx

/-- Width in bits corresponding to a maxval of the form `2^w - 1`:
`self.__uint` is kept as the numpy uint type with this many bits. -/
def widthBits (maxval : Nat) : Nat := Nat.log2 (maxval + 1)

/-- `VectorIndex.__adjust_precision`: re-encode every stored offset at the
(new) unsigned width, i.e. `data[i] = uint(data[i])`, a cast that reduces
the value modulo `2^bits`. -/
def adjustPrecision (bits : Nat) (data : List Nat) : List Nat :=
  data.map (fun v => v % 2 ^ bits)

namespace VIState

mutual

/-- `VectorIndex.add_vector(arg)`.  If the target is itself a
`VectorIndex`, each element of `arg` is recursively added to the target
(the `for a in arg` loop, `addList` below); otherwise the target
`VectorData` is extended with `arg`.  Then
`__check_precision(len(self.target))` is appended to `self.data`,
migrating the stored offsets to a wider unsigned width first when needed
(re-encoding happens only when `idx > maxval`, exactly as in the source).
`none` models a raised exception: either the 64-bit ceiling `ValueError`
or a dynamic type error from handing a value of the wrong nesting depth
to a chain (outside the modelled well-typed usage). -/
def add_vector {α : Type} : VIState α → Ragged α → Option (VIState α)
  | .index d maxval (.base l), .flat xs =>
    let l' := l ++ xs
    let idx := l'.length
    match checkPrecision maxval idx with
    | none => none
    | some maxval' =>
      let d' := if maxval < idx then adjustPrecision (widthBits maxval') d else d
      some (.index (d' ++ [idx % 2 ^ widthBits maxval']) maxval' (.base l'))
  | .index d maxval (.index d₀ m₀ t₀), .nest rs =>
    match addList (VIState.index d₀ m₀ t₀) rs with
    | none => none
    | some t' =>
      let idx := t'.tlen
      match checkPrecision maxval idx with
      | none => none
      | some maxval' =>
        let d' := if maxval < idx then adjustPrecision (widthBits maxval') d else d
        some (.index (d' ++ [idx % 2 ^ widthBits maxval']) maxval' t')
  | _, _ => none
termination_by _ v => sizeOf v

/-- The `for a in arg: self.target.add_vector(a)` loop of `add_vector`:
sequentially add each nested vector to the target chain, stopping at the
first error. -/
def addList {α : Type} : VIState α → List (Ragged α) → Option (VIState α)
  | t, [] => some t
  | t, r :: rs =>
    match add_vector t r with
    | none => none
    | some t' => addList t' rs
termination_by _ rs => sizeOf rs

end

/-- `VectorIndex.get(i)` for a scalar `i` (`__getitem_helper` composed with
the target's `get`):  `start = 0 if i == 0 else data[i-1]`,
`end = data[i]`, then `target.get(slice(start, end))`.  A `VectorData`
target returns the Python list slice `l[start:end]`; a `VectorIndex`
target resolves the slice through `slice.indices(len(self.data))` and
returns the list of `__getitem_helper(j)` results (ragged
group-of-groups).  `none` models the `IndexError` on an out-of-range
scalar index. -/
def getSingle {α : Type} : VIState α → Nat → Option (Ragged α)
  | .base _, _ => none
  | .index d _ t, i =>
    if i < d.length then
      let s := if i = 0 then 0 else d.getD (i - 1) 0
      let e := d.getD i 0
      match t with
      | .base l => some (.flat ((l.take e).drop s))
      | .index d' m' t' =>
        (((List.range (min e d'.length)).drop (min s d'.length)).mapM
          (getSingle (.index d' m' t'))).map .nest
    else none

/-- Fold `add_vector` over a list of vectors (the sequence of
`add_vector` calls of the claims). -/
def addAll {α : Type} (st : VIState α) (vs : List (Ragged α)) : Option (VIState α) :=
  addList st vs

/-- The freshly constructed empty chain of a given positive depth:
every index level has empty data and the initial `uint8` bound
`self.__maxval = 255`. -/
def emptyChain (α : Type) : Nat → VIState α
  | 0 => .base []
  | n + 1 => .index [] 255 (emptyChain α n)

end VIState

/-! ### Arithmetic facts about the width-migration loop -/

theorem log2_two_pow (n : Nat) : Nat.log2 (2 ^ n) = n := by
  simp [Nat.log2_eq_log_two, Nat.log_pow]

theorem two_pow_sub_one_add_one (n : Nat) : 2 ^ n - 1 + 1 = 2 ^ n :=
  Nat.sub_add_cancel (Nat.one_le_two_pow)

/-- The stored-offset bounds reachable by `VectorIndex.__check_precision`:
`self.__maxval` is always the maximum of one of the four numpy unsigned
widths. -/
def IsWidth (m : Nat) : Prop :=
  m = 2 ^ 8 - 1 ∨ m = 2 ^ 16 - 1 ∨ m = 2 ^ 32 - 1 ∨ m = 2 ^ 64 - 1

theorem loop_at64 (f idx : Nat) :
    checkPrecisionLoop (f + 1) (2 ^ 64 - 1) idx =
      if 2 ^ 64 - 1 < idx then none else some (2 ^ 64 - 1) := by
  simp only [checkPrecisionLoop, two_pow_sub_one_add_one, log2_two_pow]
  norm_num

theorem loop_at32 (f idx : Nat) :
    checkPrecisionLoop (f + 2) (2 ^ 32 - 1) idx =
      if 2 ^ 32 - 1 < idx then
        (if 2 ^ 64 - 1 < idx then none else some (2 ^ 64 - 1))
      else some (2 ^ 32 - 1) := by
  simp only [checkPrecisionLoop, two_pow_sub_one_add_one, log2_two_pow]
  norm_num

theorem loop_at16 (f idx : Nat) :
    checkPrecisionLoop (f + 3) (2 ^ 16 - 1) idx =
      if 2 ^ 16 - 1 < idx then
        if 2 ^ 32 - 1 < idx then
          (if 2 ^ 64 - 1 < idx then none else some (2 ^ 64 - 1))
        else some (2 ^ 32 - 1)
      else some (2 ^ 16 - 1) := by
  simp only [checkPrecisionLoop, two_pow_sub_one_add_one, log2_two_pow]
  norm_num

theorem loop_at8 (f idx : Nat) :
    checkPrecisionLoop (f + 4) (2 ^ 8 - 1) idx =
      if 2 ^ 8 - 1 < idx then
        if 2 ^ 16 - 1 < idx then
          if 2 ^ 32 - 1 < idx then
            (if 2 ^ 64 - 1 < idx then none else some (2 ^ 64 - 1))
          else some (2 ^ 32 - 1)
        else some (2 ^ 16 - 1)
      else some (2 ^ 8 - 1) := by
  simp only [checkPrecisionLoop, two_pow_sub_one_add_one, log2_two_pow]
  norm_num

/-- Success of `__check_precision` preserves the width invariant, never
shrinks the bound, and guarantees the new value fits. -/
theorem checkPrecision_props {mv idx mv' : Nat} (hw : IsWidth mv)
    (h : checkPrecision mv idx = some mv') :
    IsWidth mv' ∧ mv ≤ mv' ∧ idx ≤ mv' := by
  unfold checkPrecision at h
  rcases hw with h8 | h16 | h32 | h64 <;> subst_vars
  · rw [show (5:Nat) = 1 + 4 by norm_num, loop_at8] at h
    split_ifs at h <;> injection h with h <;> subst h <;>
      refine ⟨by unfold IsWidth; tauto, by norm_num, by omega⟩
  · rw [show (5:Nat) = 2 + 3 by norm_num, loop_at16] at h
    split_ifs at h <;> injection h with h <;> subst h <;>
      refine ⟨by unfold IsWidth; tauto, by norm_num, by omega⟩
  · rw [show (5:Nat) = 3 + 2 by norm_num, loop_at32] at h
    split_ifs at h <;> injection h with h <;> subst h <;>
      refine ⟨by unfold IsWidth; tauto, by norm_num, by omega⟩
  · rw [show (5:Nat) = 4 + 1 by norm_num, loop_at64] at h
    split_ifs at h <;> injection h with h <;> subst h <;>
      refine ⟨by unfold IsWidth; tauto, by norm_num, by omega⟩

/-- `__check_precision` succeeds exactly when the new index fits in 64
bits (the claim's "only an offset requiring more than 64 bits is a fatal
error"). -/
theorem checkPrecision_isSome_iff {mv : Nat} (idx : Nat) (hw : IsWidth mv) :
    (checkPrecision mv idx).isSome ↔ idx ≤ 2 ^ 64 - 1 := by
  unfold checkPrecision
  rcases hw with h | h | h | h <;> subst_vars
  · rw [show (5:Nat) = 1 + 4 by norm_num, loop_at8]
    split_ifs <;> simp <;> omega
  · rw [show (5:Nat) = 2 + 3 by norm_num, loop_at16]
    split_ifs <;> simp <;> omega
  · rw [show (5:Nat) = 3 + 2 by norm_num, loop_at32]
    split_ifs <;> simp <;> omega
  · rw [show (5:Nat) = 4 + 1 by norm_num, loop_at64]
    split_ifs <;> simp <;> omega

/-- When the new index already fits, no migration happens and the bound is
returned unchanged. -/
theorem checkPrecision_of_le {mv idx : Nat} (h : idx ≤ mv) :
    checkPrecision mv idx = some mv := by
  unfold checkPrecision checkPrecisionLoop
  simp [Nat.not_lt.mpr h]

/-- For a width bound, `2 ^ widthBits mv = mv + 1`: the modulus of the
numpy cast matching `self.__uint`. -/
theorem pow_widthBits {mv : Nat} (hw : IsWidth mv) : 2 ^ widthBits mv = mv + 1 := by
  rcases hw with h | h | h | h <;> subst h <;>
    rw [widthBits, two_pow_sub_one_add_one, log2_two_pow]

/-! ### Cumulative sums and list slicing -/

/-- Cumulative sums: `cums [a, b, c] = [a, a+b, a+b+c]`.  The contents of a
well-formed `VectorIndex` data column are the cumulative sums of the
lengths of the vectors added so far. -/
def cums : List Nat → List Nat
  | [] => []
  | a :: l => a :: (cums l).map (a + ·)

@[simp] theorem cums_nil : cums [] = [] := rfl

@[simp] theorem cums_length (l : List Nat) : (cums l).length = l.length := by
  induction l with
  | nil => rfl
  | cons a l ih => simp [cums, ih]

theorem cums_append_single (l : List Nat) (b : Nat) :
    cums (l ++ [b]) = cums l ++ [l.sum + b] := by
  induction l with
  | nil => simp [cums]
  | cons a l ih => simp [cums, ih, Nat.add_assoc]

theorem cums_getD (l : List Nat) (i : Nat) (h : i < l.length) :
    (cums l).getD i 0 = (l.take (i + 1)).sum := by
  induction l generalizing i with
  | nil => cases h
  | cons a l ih =>
    cases i with
    | zero => simp [cums]
    | succ i =>
      have hi : i < l.length := by simpa using h
      have hi' : i < (cums l).length := by simpa using hi
      simp [cums, List.getD, List.getElem?_map, (List.getElem?_eq_some_iff ..).2
        ⟨hi', rfl⟩, ← ih i hi, List.getD]

theorem cums_mem_le_sum {l : List Nat} : ∀ {v : Nat}, v ∈ cums l → v ≤ l.sum := by
  induction l with
  | nil => intro v h; cases h
  | cons a l ih =>
    intro v h
    rcases List.mem_cons.1 h with rfl | h
    · simp
    · rcases List.mem_map.1 h with ⟨w, hw, rfl⟩
      have := ih hw
      simp only [List.sum_cons]
      omega

/-- Extracting the `i`-th group of a concatenation by cumulative-length
offsets: Python's `join[start:end]` with `start`/`end` the stored offsets
recovers exactly the `i`-th original vector. -/
theorem join_take_drop {β : Type} (xss : List (List β)) (i : Nat) (h : i < xss.length) :
    ((xss.flatten.take (((xss.take (i + 1)).map List.length).sum)).drop
      (((xss.take i).map List.length).sum)) = xss.get ⟨i, h⟩ := by
  induction xss generalizing i with
  | nil => cases h
  | cons a xss ih =>
    cases i with
    | zero =>
      simp [List.take_append_eq_append_take, List.take_of_length_le (le_refl a.length)]
    | succ i =>
      have hi : i < xss.length := by simpa using h
      have h1 : ((a :: xss).take (i + 2)).map List.length = a.length ::
          ((xss.take (i + 1)).map List.length) := by
        rw [List.take_succ_cons, List.map_cons]
      have h2 : ((a :: xss).take (i + 1)).map List.length = a.length ::
          ((xss.take i).map List.length) := by
        rw [List.take_succ_cons, List.map_cons]
      rw [h1, h2, List.sum_cons, List.sum_cons, List.flatten_cons,
        List.take_append_eq_append_take, List.take_of_length_le (Nat.le_add_right _ _),
        Nat.add_sub_cancel_left, List.drop_append_eq_append_drop,
        List.drop_eq_nil_of_le (Nat.le_add_right _ _), Nat.add_sub_cancel_left,
        List.nil_append]
      exact ih i hi

/-- A Python slice `l[s:e]` as a gather of the indices `range(e)[s:]`. -/
theorem slice_map_getD {β : Type} (l : List β) (dflt : β) (s e : Nat)
    (hse : s ≤ e) (hel : e ≤ l.length) :
    ((List.range e).drop s).map (fun j => l.getD j dflt) = (l.take e).drop s := by
  apply List.ext_getElem
  · simp; omega
  · intro k h1 h2
    have hs : s + k < e := by simp at h1; omega
    have hl : s + k < l.length := by omega
    simp [List.getElem_drop, List.getElem_take, List.getElem_range,
      List.getD_eq_getElem?_getD, List.getElem?_eq_getElem hl]

theorem mapM_eq_some {β γ : Type} {f : β → Option γ} {g : β → γ} :
    ∀ l : List β, (∀ x ∈ l, f x = some (g x)) → l.mapM f = some (l.map g) := by
  intro l h
  induction l with
  | nil => rfl
  | cons a l ih =>
    rw [List.mapM_cons, h a (List.mem_cons_self a l),
      ih (fun x hx => h x (List.mem_cons_of_mem a hx))]
    rfl

theorem sum_take_mono (l : List Nat) {i j : Nat} (h : i ≤ j) :
    (l.take i).sum ≤ (l.take j).sum := by
  have h1 : (l.take j).take i = l.take i := by
    rw [List.take_take, min_eq_left h]
  calc (l.take i).sum = ((l.take j).take i).sum := by rw [h1]
    _ ≤ ((l.take j).take i).sum + ((l.take j).drop i).sum := Nat.le_add_right _ _
    _ = (l.take j).sum := by rw [List.sum_take_add_sum_drop]

theorem sum_take_le_sum (l : List Nat) (i : Nat) : (l.take i).sum ≤ l.sum := by
  calc (l.take i).sum ≤ (l.take l.length).sum := by
        rcases Nat.le_total i l.length with h | h
        · exact sum_take_mono l h
        · rw [List.take_of_length_le h, List.take_length]
    _ = l.sum := by rw [List.take_length]

theorem adjust_id {bits : Nat} {d : List Nat} (h : ∀ v ∈ d, v < 2 ^ bits) :
    adjustPrecision bits d = d :=
  (List.map_congr_left fun v hv => Nat.mod_eq_of_lt (h v hv)).trans (List.map_id d)

/-! ### Representation invariant for VectorIndex chains

`Rep st vs` says that the chain state `st` is exactly the state produced
by adding the ragged vectors `vs`, in order, to an initially empty chain:
every index level stores the cumulative sizes of the groups added so far,
the backing `VectorData` stores the concatenation of all scalars, and the
width bound of every level is one of the four numpy widths with all
stored offsets within bound. -/

inductive Rep {α : Type} : VIState α → List (Ragged α) → Prop where
  | flat (xss : List (List α)) (mv : Nat) (hw : IsWidth mv)
      (hb : xss.flatten.length ≤ mv) :
      Rep (.index (cums (xss.map List.length)) mv (.base xss.flatten)) (xss.map .flat)
  | nest (rss : List (List (Ragged α))) (mv : Nat) {t : VIState α}
      (hw : IsWidth mv) (hb : rss.flatten.length ≤ mv)
      (ht : Rep t rss.flatten) :
      Rep (.index (cums (rss.map List.length)) mv t) (rss.map .nest)

theorem Rep.shape {α : Type} {st : VIState α} {vs : List (Ragged α)} (h : Rep st vs) :
    ∃ d mv t, st = .index d mv t ∧ d.length = vs.length ∧ IsWidth mv := by
  cases h with
  | flat xss mv hw hb => exact ⟨_, _, _, rfl, by simp, hw⟩
  | nest rss mv hw hb ht => exact ⟨_, _, _, rfl, by simp, hw⟩

theorem Rep.tlen_eq {α : Type} {st : VIState α} {vs : List (Ragged α)} (h : Rep st vs) :
    st.tlen = vs.length := by
  rcases h.shape with ⟨d, mv, t, rfl, hlen, _⟩
  simpa [VIState.tlen] using hlen

/-- Adding a single vector to a represented chain (given that the source
call succeeded) yields the represented extension; the nesting depth of the
chain does not change. -/
theorem add_rep {α : Type} :
    ∀ (n : Nat) (st : VIState α) (vs : List (Ragged α)) (v : Ragged α) (st' : VIState α),
      st.depth = n → Rep st vs → VIState.add_vector st v = some st' →
      Rep st' (vs ++ [v]) ∧ st'.depth = n := by
  intro n
  induction n with
  | zero =>
    intro st vs v st' hd hrep _
    rcases hrep.shape with ⟨d, mv, t, rfl, _, _⟩
    simp [VIState.depth] at hd
  | succ n ih =>
    have haux : ∀ (rs : List (Ragged α)) (t : VIState α) (acc : List (Ragged α))
        (t' : VIState α), t.depth = n → Rep t acc → VIState.addList t rs = some t' →
        Rep t' (acc ++ rs) ∧ t'.depth = n := by
      intro rs
      induction rs with
      | nil =>
        intro t acc t' hd hrep h
        rw [VIState.addList] at h
        injection h with h
        subst h
        simpa using ⟨hrep, hd⟩
      | cons r rs ihr =>
        intro t acc t' hd hrep h
        rw [VIState.addList] at h
        cases hv : VIState.add_vector t r with
        | none => rw [hv] at h; cases h
        | some t1 =>
          rw [hv] at h
          obtain ⟨h1, hd1⟩ := ih t acc r t1 hd hrep hv
          obtain ⟨h2, hd2⟩ := ihr t1 (acc ++ [r]) t' hd1 h1 h
          exact ⟨by simpa using h2, hd2⟩
    intro st vs v st' hd hrep hadd
    cases hrep with
    | flat xss mv hw hb =>
      have hdepth1 : n = 0 := by simpa [VIState.depth] using hd
      cases v with
      | nest rs => simp [VIState.add_vector] at hadd
      | flat xs =>
        rw [VIState.add_vector] at hadd
        set idx := (xss.flatten ++ xs).length with hidx
        cases hcp : checkPrecision mv idx with
        | none => simp only [hcp] at hadd; cases hadd
        | some mv' =>
          simp only [hcp, Option.some.injEq] at hadd
          obtain ⟨hw', hle', hfit⟩ := checkPrecision_props hw hcp
          have hpow : 2 ^ widthBits mv' = mv' + 1 := pow_widthBits hw'
          have hmod : idx % 2 ^ widthBits mv' = idx :=
            Nat.mod_eq_of_lt (by omega)
          have hbound : ∀ w ∈ cums (xss.map List.length), w ≤ mv := by
            intro w hw2
            have := cums_mem_le_sum hw2
            rw [← List.length_flatten] at this
            omega
          have hdata : (if mv < idx then
              adjustPrecision (widthBits mv') (cums (xss.map List.length))
              else cums (xss.map List.length)) = cums (xss.map List.length) := by
            split
            · exact adjust_id (fun w hw2 => by have := hbound w hw2; omega)
            · rfl
          rw [hdata, hmod] at hadd
          subst hadd
          constructor
          · have := Rep.flat (α := α) (xss ++ [xs]) mv' hw'
              (by simpa [hidx] using hfit)
            simpa [cums_append_single, List.length_flatten, hidx] using this
          · simp [VIState.depth, hdepth1]
    | nest rss mv hw hb ht =>
      rcases ht.shape with ⟨d₀, m₀, t₀, hteq, _, _⟩
      subst hteq
      have hdn : VIState.depth (VIState.index d₀ m₀ t₀) = n := by
        simpa [VIState.depth] using hd
      cases v with
      | flat xs => simp [VIState.add_vector] at hadd
      | nest rs =>
        rw [VIState.add_vector] at hadd
        cases hal : VIState.addList (VIState.index d₀ m₀ t₀) rs with
        | none => simp only [hal] at hadd; cases hadd
        | some t1 =>
          simp only [hal] at hadd
          obtain ⟨h1, hd1⟩ := haux rs _ rss.flatten t1 hdn ht hal
          have htlen : t1.tlen = (rss.flatten ++ rs).length := h1.tlen_eq
          cases hcp : checkPrecision mv t1.tlen with
          | none => simp only [hcp] at hadd; cases hadd
          | some mv' =>
            simp only [hcp, Option.some.injEq] at hadd
            obtain ⟨hw', hle', hfit⟩ := checkPrecision_props hw hcp
            have hpow : 2 ^ widthBits mv' = mv' + 1 := pow_widthBits hw'
            have hmod : t1.tlen % 2 ^ widthBits mv' = t1.tlen :=
              Nat.mod_eq_of_lt (by omega)
            have hbound : ∀ w ∈ cums (rss.map List.length), w ≤ mv := by
              intro w hw2
              have := cums_mem_le_sum hw2
              rw [← List.length_flatten] at this
              omega
            have hdata : (if mv < t1.tlen then
                adjustPrecision (widthBits mv') (cums (rss.map List.length))
                else cums (rss.map List.length)) = cums (rss.map List.length) := by
              split
              · exact adjust_id (fun w hw2 => by have := hbound w hw2; omega)
              · rfl
            rw [hdata, hmod] at hadd
            subst hadd
            constructor
            · have := Rep.nest (α := α) (rss ++ [rs]) mv' hw'
                (by simpa [htlen] using hfit) (by simpa using h1)
              simpa [cums_append_single, List.length_flatten, htlen] using this
            · simp [VIState.depth, hd1]

/-- Folding `add_vector` over a successful sequence of additions preserves
the representation invariant. -/
theorem addList_rep {α : Type} (vs : List (Ragged α)) {st : VIState α}
    {acc : List (Ragged α)} {st' : VIState α} (hrep : Rep st acc)
    (h : VIState.addList st vs = some st') : Rep st' (acc ++ vs) := by
  induction vs generalizing st acc with
  | nil =>
    rw [VIState.addList] at h
    injection h with h
    subst h
    simpa using hrep
  | cons r rs ihr =>
    rw [VIState.addList] at h
    cases hv : VIState.add_vector st r with
    | none => rw [hv] at h; cases h
    | some t1 =>
      rw [hv] at h
      obtain ⟨h1, _⟩ := add_rep st.depth st acc r t1 rfl hrep hv
      simpa using ihr h1 h

/-- Reading element `i` of a represented chain returns exactly the `i`-th
vector added. -/
theorem get_rep {α : Type} {st : VIState α} {vs : List (Ragged α)} (h : Rep st vs) :
    ∀ (i : Nat) (hi : i < vs.length),
      VIState.getSingle st i = some (vs.get ⟨i, hi⟩) := by
  induction h with
  | flat xss mv hw hb =>
    intro i hi
    have hix : i < xss.length := by simpa using hi
    have hlen : i < (cums (xss.map List.length)).length := by simpa using hix
    have hs : (if i = 0 then 0 else (cums (xss.map List.length)).getD (i - 1) 0)
        = ((xss.take i).map List.length).sum := by
      cases i with
      | zero => simp
      | succ j =>
        rw [if_neg (Nat.succ_ne_zero j), Nat.succ_sub_one,
          cums_getD _ j (by simp; omega)]
        rw [← List.map_take]
    have he : (cums (xss.map List.length)).getD i 0
        = ((xss.take (i + 1)).map List.length).sum := by
      rw [cums_getD _ i (by simpa using hix), ← List.map_take]
    rw [VIState.getSingle, if_pos hlen]
    show some (Ragged.flat
        ((xss.flatten.take ((cums (xss.map List.length)).getD i 0)).drop
          (if i = 0 then 0 else (cums (xss.map List.length)).getD (i - 1) 0)))
      = some ((xss.map Ragged.flat).get ⟨i, hi⟩)
    rw [hs, he, join_take_drop xss i hix]
    simp
  | nest rss mv hw hb ht ih =>
    intro i hi
    have hix : i < rss.length := by simpa using hi
    have hlen : i < (cums (rss.map List.length)).length := by simpa using hix
    rcases ht.shape with ⟨d₀, m₀, t₀, hteq, hdlen, _⟩
    subst hteq
    have hs : (if i = 0 then 0 else (cums (rss.map List.length)).getD (i - 1) 0)
        = ((rss.take i).map List.length).sum := by
      cases i with
      | zero => simp
      | succ j =>
        rw [if_neg (Nat.succ_ne_zero j), Nat.succ_sub_one,
          cums_getD _ j (by simp; omega)]
        rw [← List.map_take]
    have he : (cums (rss.map List.length)).getD i 0
        = ((rss.take (i + 1)).map List.length).sum := by
      rw [cums_getD _ i (by simpa using hix), ← List.map_take]
    rw [VIState.getSingle, if_pos hlen]
    show (((List.range (min ((cums (rss.map List.length)).getD i 0) d₀.length)).drop
        (min (if i = 0 then 0 else (cums (rss.map List.length)).getD (i - 1) 0)
          d₀.length)).mapM
        (VIState.getSingle (VIState.index d₀ m₀ t₀))).map Ragged.nest
      = some ((rss.map Ragged.nest).get ⟨i, hi⟩)
    rw [hs, he]
    set S0 := ((rss.take i).map List.length).sum with hS0
    set S1 := ((rss.take (i + 1)).map List.length).sum with hS1
    have hS0S1 : S0 ≤ S1 := by
      rw [hS0, hS1, List.map_take, List.map_take]
      exact sum_take_mono _ (Nat.le_succ i)
    have hS1len : S1 ≤ rss.flatten.length := by
      rw [hS1, List.map_take, List.length_flatten]
      exact sum_take_le_sum _ _
    have hmin1 : min S1 d₀.length = S1 := by rw [hdlen]; exact min_eq_left hS1len
    have hmin0 : min S0 d₀.length = S0 := by
      rw [hdlen]; exact min_eq_left (le_trans hS0S1 hS1len)
    rw [hmin1, hmin0]
    have hmapM : ((List.range S1).drop S0).mapM
        (VIState.getSingle (VIState.index d₀ m₀ t₀)) =
        some (((List.range S1).drop S0).map
          (fun j => rss.flatten.getD j (Ragged.flat []))) := by
      apply mapM_eq_some
      intro j hj
      have hje : j < S1 := by
        have := List.drop_subset S0 (List.range S1) hj
        simpa using this
      have hjf : j < rss.flatten.length := lt_of_lt_of_le hje hS1len
      rw [ih j (by simpa using hjf)]
      rw [List.getD_eq_getElem _ _ hjf]
      simp
    rw [hmapM, slice_map_getD _ _ _ _ hS0S1 hS1len, join_take_drop rss i hix]
    simp

theorem rep_empty {α : Type} : ∀ d : Nat, 0 < d → Rep (VIState.emptyChain α d) [] := by
  intro d
  induction d with
  | zero => intro h; cases h
  | succ n ih =>
    intro _
    cases n with
    | zero =>
      have h := Rep.flat (α := α) [] 255 (Or.inl (by norm_num)) (by simp)
      simpa [VIState.emptyChain] using h
    | succ m =>
      have h := Rep.nest (α := α) [] 255 (Or.inl (by norm_num)) (by simp)
        (by simpa using ih (Nat.succ_pos m))
      simpa [VIState.emptyChain] using h

theorem log2_256 : Nat.log2 256 = 8 := by
  have h : (256 : Nat) = 2 ^ 8 := by norm_num
  rw [h, log2_two_pow]

/-- C1: for every VectorIndex chain (any positive depth, so including
multi-level chains whose target is itself a VectorIndex) and every
sequence of ragged vectors `vs` added in order via `add_vector` starting
from the freshly constructed empty chain, `get(i)` returns exactly the
vector added at position `i`, for every `i < n`, with the nested group
structure reproduced for multi-level chains. -/
theorem vectorIndex_ragged_roundtrip {α : Type} (d : Nat) (hd : 0 < d)
    (vs : List (Ragged α)) (st' : VIState α)
    (h : VIState.addAll (VIState.emptyChain α d) vs = some st') :
    ∀ (i : Nat) (hi : i < vs.length),
      VIState.getSingle st' i = some (vs.get ⟨i, hi⟩) := by
  have hrep := addList_rep vs (rep_empty d hd) h
  intro i hi
  have := get_rep hrep i (by simpa using hi)
  simpa using this

/-- Witness for C1 at a concrete two-level chain: adding the nested
vectors `[[1,2],[3]]` and `[[4]]` and reading element 1 back. -/
theorem vectorIndex_ragged_roundtrip_witness :
    VIState.getSingle
      (VIState.index [2, 3] 255 (VIState.index [2, 3, 4] 255 (VIState.base [1, 2, 3, 4]))) 1
      = some (Ragged.nest [Ragged.flat [4]]) :=
  vectorIndex_ragged_roundtrip 2 (by norm_num)
    [Ragged.nest [Ragged.flat [1, 2], Ragged.flat [3]], Ragged.nest [Ragged.flat [4]]]
    (VIState.index [2, 3] 255 (VIState.index [2, 3, 4] 255 (VIState.base [1, 2, 3, 4])))
    (by norm_num [VIState.addAll, VIState.addList, VIState.add_vector, checkPrecision,
      checkPrecisionLoop, widthBits, VIState.tlen, adjustPrecision, log2_256,
      VIState.emptyChain])
    1 (by norm_num)

/-- C2: for a VectorIndex whose stored offsets respect the current width
bound, appending a vector re-encodes every previously stored offset while
preserving its exact numeric value (the new data is literally
`data ++ [new_offset]`), migrates the bound upward to a wider numpy width
as needed without error, and `get` returns identical results before and
after; only an offset that does not fit in 64 bits makes `add_vector`
raise. -/
theorem vectorIndex_width_migration {α : Type} (d : List Nat) (mv : Nat) (l xs : List α)
    (hw : IsWidth mv) (hd : ∀ v ∈ d, v ≤ mv) (hdl : ∀ v ∈ d, v ≤ l.length) :
    (l.length + xs.length ≤ 2 ^ 64 - 1 →
      ∃ mv', IsWidth mv' ∧ mv ≤ mv' ∧ l.length + xs.length ≤ mv' ∧
        VIState.add_vector (VIState.index d mv (VIState.base l)) (Ragged.flat xs)
          = some (VIState.index (d ++ [l.length + xs.length]) mv'
              (VIState.base (l ++ xs))) ∧
        ∀ i, i < d.length →
          VIState.getSingle (VIState.index (d ++ [l.length + xs.length]) mv'
              (VIState.base (l ++ xs))) i
            = VIState.getSingle (VIState.index d mv (VIState.base l)) i) ∧
    (2 ^ 64 - 1 < l.length + xs.length →
      VIState.add_vector (VIState.index d mv (VIState.base l)) (Ragged.flat xs)
        = none) := by
  constructor
  · intro hfit
    have hsome : (checkPrecision mv ((l ++ xs).length)).isSome := by
      rw [checkPrecision_isSome_iff _ hw]
      simpa using hfit
    cases hcp : checkPrecision mv ((l ++ xs).length) with
    | none => rw [hcp] at hsome; cases hsome
    | some mv' =>
      obtain ⟨hw', hle', hfit'⟩ := checkPrecision_props hw hcp
      refine ⟨mv', hw', hle', by simpa using hfit', ?_, ?_⟩
      · rw [VIState.add_vector]
        simp only [hcp, Option.some.injEq]
        have hpow : 2 ^ widthBits mv' = mv' + 1 := pow_widthBits hw'
        have hmod : (l ++ xs).length % 2 ^ widthBits mv' = (l ++ xs).length :=
          Nat.mod_eq_of_lt (by simp at hfit' ⊢; omega)
        have hdata : (if mv < (l ++ xs).length then
            adjustPrecision (widthBits mv') d else d) = d := by
          split
          · exact adjust_id (fun w hw2 => by have := hd w hw2; omega)
          · rfl
        rw [hdata, hmod]
        simp
      · intro i hil
        have hl1 : i < (d ++ [l.length + xs.length]).length := by simp; omega
        rw [VIState.getSingle, if_pos hl1, VIState.getSingle, if_pos hil]
        have hgi : (d ++ [l.length + xs.length]).getD i 0 = d.getD i 0 := by
          rw [List.getD_append _ _ _ _ hil]
        have hgi1 : (if i = 0 then 0
            else (d ++ [l.length + xs.length]).getD (i - 1) 0)
            = (if i = 0 then 0 else d.getD (i - 1) 0) := by
          cases i with
          | zero => rfl
          | succ j =>
            simp only [if_neg (Nat.succ_ne_zero j), Nat.succ_sub_one]
            rw [List.getD_append _ _ _ _ (by omega)]
        show some (Ragged.flat (((l ++ xs).take
            ((d ++ [l.length + xs.length]).getD i 0)).drop
            (if i = 0 then 0 else (d ++ [l.length + xs.length]).getD (i - 1) 0)))
          = some (Ragged.flat ((l.take (d.getD i 0)).drop
            (if i = 0 then 0 else d.getD (i - 1) 0)))
        rw [hgi, hgi1, List.take_append_of_le_length]
        have := List.getD_eq_getElem d 0 hil
        have hmem : d.getD i 0 ∈ d := by
          rw [this]; exact List.getElem_mem _
        exact hdl _ hmem
  · intro hbig
    have hnone : checkPrecision mv ((l ++ xs).length) = none := by
      cases hcp : checkPrecision mv ((l ++ xs).length) with
      | none => rfl
      | some mv' =>
        have : (checkPrecision mv ((l ++ xs).length)).isSome := by rw [hcp]; rfl
        rw [checkPrecision_isSome_iff _ hw] at this
        simp at this
        omega
    rw [VIState.add_vector]
    simp only [hnone]

/-- Witness for C2 at the first width boundary: a uint8 index with 250
stored elements receives a 10-element vector, forcing migration to 16
bits. -/
theorem vectorIndex_width_migration_witness :
    ((List.replicate 250 (0 : Nat)).length + [0, 0, 0, 0, 0, 0, 0, 0, 0, (0:Nat)].length
        ≤ 2 ^ 64 - 1 →
      ∃ mv', IsWidth mv' ∧ 255 ≤ mv' ∧
        (List.replicate 250 (0 : Nat)).length
            + [0, 0, 0, 0, 0, 0, 0, 0, 0, (0:Nat)].length ≤ mv' ∧
        VIState.add_vector
            (VIState.index [250] 255 (VIState.base (List.replicate 250 (0 : Nat))))
            (Ragged.flat [0, 0, 0, 0, 0, 0, 0, 0, 0, 0])
          = some (VIState.index ([250] ++ [(List.replicate 250 (0 : Nat)).length
                + [0, 0, 0, 0, 0, 0, 0, 0, 0, (0:Nat)].length]) mv'
              (VIState.base (List.replicate 250 (0 : Nat)
                ++ [0, 0, 0, 0, 0, 0, 0, 0, 0, 0]))) ∧
        ∀ i, i < [250].length →
          VIState.getSingle (VIState.index ([250] ++ [(List.replicate 250 (0 : Nat)).length
                + [0, 0, 0, 0, 0, 0, 0, 0, 0, (0:Nat)].length]) mv'
              (VIState.base (List.replicate 250 (0 : Nat)
                ++ [0, 0, 0, 0, 0, 0, 0, 0, 0, 0]))) i
            = VIState.getSingle
                (VIState.index [250] 255 (VIState.base (List.replicate 250 (0 : Nat)))) i) ∧
    (2 ^ 64 - 1 < (List.replicate 250 (0 : Nat)).length
        + [0, 0, 0, 0, 0, 0, 0, 0, 0, (0:Nat)].length →
      VIState.add_vector
          (VIState.index [250] 255 (VIState.base (List.replicate 250 (0 : Nat))))
          (Ragged.flat [0, 0, 0, 0, 0, 0, 0, 0, 0, 0])
        = none) :=
  vectorIndex_width_migration [250] 255 (List.replicate 250 0)
    [0, 0, 0, 0, 0, 0, 0, 0, 0, 0]
    (Or.inl (by norm_num)) (by intro v hv; simp at hv; omega)
    (fun v hv => by
      rw [List.mem_singleton] at hv
      subst hv
      rw [List.length_replicate])

/-! ## DynamicTableRegion scatter-gather (`table.py`, `DynamicTableRegion.get`
and `_index_lol`)

The referenced table is modelled by its id column and its plain value
columns; `DynamicTable.get` with a list key, `df=False`, `index=True`
(`__get_selection_as_dict` + `list(sel.values())`) gathers each column at
the requested row indices.  `DynamicTableRegion.get` with a list argument
and `index=False`, `df=False` resolves the stored indices, deduplicates
them with `np.unique` (sorted distinct values), bulk-fetches the unique
rows, and scatters the result back into the caller's order through the
lookup table `lut` (`_index_lol`). -/

/-- A target `DynamicTable` as seen by the region read path: the `id`
column (`ElementIdentifiers`) and the plain `VectorData` columns in
`colnames` order. -/
structure SelTable (β : Type) where
  ids : List Int
  cols : List (List β)

/-- `np.unique`: the sorted list of distinct values. -/
def npUnique (l : List Nat) : List Nat :=
  l.dedup.insertionSort (· ≤ ·)

theorem mem_npUnique {l : List Nat} {v : Nat} : v ∈ npUnique l ↔ v ∈ l := by
  rw [npUnique, (List.perm_insertionSort _ _).mem_iff, List.mem_dedup]

/-- `DynamicTable.get(idx_list, df=False, index=True)` on a table of plain
columns (`__get_selection_as_dict` followed by `list(sel.values())`): the
id column and every public column gathered at the given row indices.
`none` models the `IndexError` raised on an out-of-range row. -/
def tableGetRows {β : Type} (t : SelTable β) (idx : List Nat) :
    Option (List Int × List (List β)) := do
  let idcol ← idx.mapM (fun i => t.ids[i]?)
  let colsv ← t.cols.mapM (fun col => idx.mapM (fun i => col[i]?))
  pure (idcol, colsv)

/-- `DynamicTableRegion.get(arg, index=False, df=False)` for a list
argument: `ret = [self.data[i] for i in idx]`, then
`uniq = np.unique(ret)`, `lut = {val: i for i, val in enumerate(uniq)}`,
`values = self.table.get(uniq, df=False, index=True)`, and finally
`_index_lol(values, ret, lut)` which maps every column `col` of `values`
to `[col[lut[i]] for i in ret]`. -/
def dtrGetList {β : Type} (data : List Nat) (t : SelTable β) (arg : List Nat) :
    Option (List Int × List (List β)) := do
  let ret ← arg.mapM (fun i => data[i]?)
  let uniq := npUnique ret
  match ← tableGetRows t uniq with
  | (idv, colsv) => do
    let idr ← ret.mapM (fun i => idv[uniq.indexOf i]?)
    let colr ← colsv.mapM (fun col => ret.mapM (fun i => col[uniq.indexOf i]?))
    pure (idr, colr)

theorem mapM_map {β γ δ : Type} (f : β → γ) (g : γ → Option δ) (l : List β) :
    (l.map f).mapM g = l.mapM (fun x => g (f x)) := by
  induction l with
  | nil => rfl
  | cons a l ih => simp only [List.map_cons, List.mapM_cons, ih]

/-- Gathering through `getElem?` succeeds and equals the `getD` gather when
all indices are in bounds. -/
theorem gather_eq_some {γ : Type} (col : List γ) (idx : List Nat) (dflt : γ)
    (h : ∀ i ∈ idx, i < col.length) :
    idx.mapM (fun i => col[i]?) = some (idx.map (fun i => col.getD i dflt)) := by
  apply mapM_eq_some
  intro i hi
  rw [List.getElem?_eq_getElem (h i hi), List.getD_eq_getElem _ _ (h i hi)]

/-- Scattering the unique-gathered column back through the lookup table
recovers the direct gather in caller order. -/
theorem scatter_eq_some {γ : Type} (col : List γ) (uniq ret : List Nat) (dflt : γ)
    (hmem : ∀ v ∈ ret, v ∈ uniq) (hb : ∀ v ∈ uniq, v < col.length) :
    ret.mapM (fun i => (uniq.map (fun j => col.getD j dflt))[uniq.indexOf i]?)
      = some (ret.map (fun i => col.getD i dflt)) := by
  apply mapM_eq_some
  intro i hi
  have hk : uniq.indexOf i < uniq.length := List.indexOf_lt_length.2 (hmem i hi)
  have hk' : uniq.indexOf i < (uniq.map (fun j => col.getD j dflt)).length := by
    simpa using hk
  rw [List.getElem?_eq_getElem hk', List.getElem_map, List.getElem_indexOf hk]

/-- C3: for a `DynamicTableRegion` holding (possibly duplicate and
out-of-order) row indices into its target table, `get` with an index list
returns the target table's rows in exactly the caller's order — the same
result as gathering the rows directly, even though the implementation
fetches unique rows and scatters them back. -/
theorem dtr_get_caller_order {β : Type} [Inhabited β] (data : List Nat)
    (t : SelTable β) (arg : List Nat)
    (hd : ∀ i ∈ arg, i < data.length)
    (hv : ∀ v ∈ data, v < t.ids.length)
    (hc : ∀ col ∈ t.cols, col.length = t.ids.length) :
    dtrGetList data t arg = tableGetRows t (arg.map (fun i => data.getD i 0)) := by
  have hret : arg.mapM (fun i => data[i]?)
      = some (arg.map (fun i => data.getD i 0)) := gather_eq_some data arg 0 hd
  set ret := arg.map (fun i => data.getD i 0) with hretdef
  have hretmem : ∀ v ∈ ret, v < t.ids.length := by
    intro v hvr
    rcases List.mem_map.1 hvr with ⟨i, hia, rfl⟩
    refine hv _ ?_
    rw [List.getD_eq_getElem _ _ (hd i hia)]
    exact List.getElem_mem _
  have huniqmem : ∀ v ∈ npUnique ret, v < t.ids.length := by
    intro v hvu
    exact hretmem v (mem_npUnique.1 hvu)
  have hretuniq : ∀ v ∈ ret, v ∈ npUnique ret := fun v hvr => mem_npUnique.2 hvr
  have hids : (npUnique ret).mapM (fun i => t.ids[i]?)
      = some ((npUnique ret).map (fun i => t.ids.getD i 0)) :=
    gather_eq_some t.ids (npUnique ret) 0 huniqmem
  have hcols : t.cols.mapM (fun col => (npUnique ret).mapM (fun i => col[i]?))
      = some (t.cols.map (fun col =>
          (npUnique ret).map (fun i => col.getD i default))) := by
    apply mapM_eq_some
    intro col hcol
    exact gather_eq_some col (npUnique ret) default
      (fun i hi => (hc col hcol) ▸ huniqmem i hi)
  have hids' : ret.mapM (fun i =>
      ((npUnique ret).map (fun j => t.ids.getD j 0))[(npUnique ret).indexOf i]?)
      = some (ret.map (fun i => t.ids.getD i 0)) :=
    scatter_eq_some t.ids (npUnique ret) ret 0 hretuniq huniqmem
  have hcols' : (t.cols.map (fun col =>
        (npUnique ret).map (fun i => col.getD i default))).mapM
      (fun col => ret.mapM (fun i => col[(npUnique ret).indexOf i]?))
      = some (t.cols.map (fun col => ret.map (fun i => col.getD i default))) := by
    rw [mapM_map]
    apply mapM_eq_some
    intro col hcol
    exact scatter_eq_some col (npUnique ret) ret default hretuniq
      (fun i hi => (hc col hcol) ▸ huniqmem i hi)
  have hrhs_ids : ret.mapM (fun i => t.ids[i]?)
      = some (ret.map (fun i => t.ids.getD i 0)) :=
    gather_eq_some t.ids ret 0 hretmem
  have hrhs_cols : t.cols.mapM (fun col => ret.mapM (fun i => col[i]?))
      = some (t.cols.map (fun col => ret.map (fun i => col.getD i default))) := by
    apply mapM_eq_some
    intro col hcol
    exact gather_eq_some col ret default (fun i hi => (hc col hcol) ▸ hretmem i hi)
  simp only [dtrGetList, tableGetRows, hret, hids, hcols, hids', hcols', hrhs_ids,
    hrhs_cols, Option.some_bind, Option.bind_eq_bind, Option.pure_def]

/-- Witness for C3 at the spec's example: region data `[2,0,2,1]` into a
3-row table, fetched with the full duplicate, out-of-order index list. -/
theorem dtr_get_caller_order_witness :
    dtrGetList [2, 0, 2, 1] (SelTable.mk [0, 1, 2] [[10, 20, 30]]) [0, 1, 2, 3]
      = tableGetRows (SelTable.mk [0, 1, 2] [[10, 20, 30]])
          ([0, 1, 2, 3].map (fun i => [2, 0, 2, 1].getD i 0)) :=
  dtr_get_caller_order (β := Nat) [2, 0, 2, 1] (SelTable.mk [0, 1, 2] [[10, 20, 30]])
    [0, 1, 2, 3] (by decide) (by decide) (by decide)

/-! ## EnumData (`table.py`, class `EnumData`, `_uint_precision`,
`_map_elements`)

An `EnumData` column stores integer codes (`self.data`) referencing a
shared dictionary of distinct values (`self.elements.data`).  The
reverse map `self.__revidx` (a Python dict) is modelled as a function
`α → Option Nat`, and the current code width `self.__uint` by its bit
count (`none` when no width has been chosen yet, as for a fresh empty
column). -/

/-- `_uint_precision(elements)`: bit width of the narrowest numpy unsigned
type chosen for `n` elements:
`8 * max(1, int(2 ** ceil((ceil(log2 n) - 8) / 8)))`.
`Nat.clog 2 n` is the exact `ceil(log2 n)` for `n ≥ 1`; the
`int(2 ** e) = 0` truncation for the negative exponent at `n = 1` is
absorbed by the `max 1`, so every `c ≤ 8` yields 8 bits. -/
def uintPrecisionBits (n : Nat) : Nat :=
  let c := Nat.clog 2 n
  if c ≤ 8 then 8 else 8 * 2 ^ ((c - 8 + 7) / 8)

/-- `_map_elements(uint, elements)`: the dict `{t: uint(i) for i, t in
enumerate(elements)}` as a lookup function.  (For the duplicate-free
element lists maintained by `EnumData` the enumerated position of a term
is its `indexOf`.) -/
def mapElements {α : Type} [DecidableEq α] (bits : Nat) (elements : List α) :
    α → Option Nat :=
  fun t => if t ∈ elements then some (elements.indexOf t % 2 ^ bits) else none

/-- The state of an `EnumData` column. -/
structure EnumState (α : Type) where
  data : List Nat
  elements : List α
  revidx : α → Option Nat
  ubits : Option Nat

/-- A fresh `EnumData()` with no data and no elements:
`self.__revidx = dict()`, `self.__uint = None`. -/
def emptyEnum (α : Type) : EnumState α :=
  ⟨[], [], fun _ => none, none⟩

/-- The width the source maintains for the current dictionary size. -/
def enumBits {α : Type} (st : EnumState α) : Nat :=
  uintPrecisionBits st.elements.length

/-- `EnumData.__add_term(term)`: if the term is known, return its code;
otherwise append it to `elements`, recompute the required width, and
either record the new code (same width) or remap every term and re-encode
every stored code at the wider width.  Returns the new state and the code
of `term`. -/
def addTerm {α : Type} [DecidableEq α] (st : EnumState α) (term : α) :
    EnumState α × Nat :=
  match st.revidx term with
  | some code => (st, code)
  | none =>
    let elements' := st.elements ++ [term]
    let bits := uintPrecisionBits elements'.length
    if st.ubits = some bits then
      let code := (elements'.length - 1) % 2 ^ bits
      ({ st with
          elements := elements',
          revidx := fun x => if x = term then some code else st.revidx x }, code)
    else
      let revidx' := mapElements bits elements'
      ({ data := st.data.map (fun v => v % 2 ^ bits),
         elements := elements', revidx := revidx', ubits := some bits },
        (revidx' term).getD 0)

/-- `EnumData.add_row(val, index)`: when `index` is true the given value
is appended directly as an integer code (`super().append(val)`); when
false the value is a term resolved through `__add_term` first.  `none`
models a dynamically ill-typed argument for the chosen mode. -/
def enumAddRow {α : Type} [DecidableEq α] (st : EnumState α) (val : α ⊕ Nat)
    (index : Bool) : Option (EnumState α) :=
  if index then
    match val with
    | .inr n => some { st with data := st.data ++ [n] }
    | .inl _ => none
  else
    match val with
    | .inl t =>
      let p := addTerm st t
      some { p.1 with data := p.1.data ++ [p.2] }
    | .inr _ => none

/-- The term-mode `add_row` as a total function (its `enumAddRow` branch
always succeeds). -/
def enumAddTermRow {α : Type} [DecidableEq α] (st : EnumState α) (t : α) :
    EnumState α :=
  { (addTerm st t).1 with data := (addTerm st t).1.data ++ [(addTerm st t).2] }

/-- `EnumData.get(i, index=...)` for a scalar `i`: fetch the stored code
`self.data[i]`; return it when `index` is true, else dereference it
through `elements`. -/
def enumGet {α : Type} (st : EnumState α) (i : Nat) (index : Bool) :
    Option (α ⊕ Nat) :=
  match st.data[i]? with
  | none => none
  | some idx => if index then some (.inr idx) else (st.elements[idx]?).map .inl

/-- Invariant of reachable `EnumData` states: distinct dictionary
entries, a reverse map consistent with the dictionary at the current
width, codes within the current width, and the width itself as the source
maintains it. -/
def EnumInv {α : Type} [DecidableEq α] (st : EnumState α) : Prop :=
  st.elements.Nodup ∧
  st.revidx = mapElements (enumBits st) st.elements ∧
  (∀ c ∈ st.data, c < 2 ^ enumBits st) ∧
  st.ubits = (if st.elements.isEmpty then none else some (enumBits st))

theorem clog_le_uintPrecisionBits (n : Nat) : Nat.clog 2 n ≤ uintPrecisionBits n := by
  simp only [uintPrecisionBits]
  split
  · omega
  · have he : (Nat.clog 2 n - 8 + 7) / 8 + 1 ≤ 2 ^ ((Nat.clog 2 n - 8 + 7) / 8) :=
      Nat.lt_two_pow _
    have h8 := Nat.mul_le_mul_left 8 he
    omega

theorem le_pow_uintPrecisionBits (n : Nat) : n ≤ 2 ^ uintPrecisionBits n :=
  le_trans (Nat.le_pow_clog (by norm_num) n)
    (Nat.pow_le_pow_right (by norm_num) (clog_le_uintPrecisionBits n))

theorem uintPrecisionBits_mono {n m : Nat} (h : n ≤ m) :
    uintPrecisionBits n ≤ uintPrecisionBits m := by
  have hc : Nat.clog 2 n ≤ Nat.clog 2 m := Nat.clog_mono_right 2 h
  simp only [uintPrecisionBits]
  split <;> split
  · omega
  · calc (8:Nat) = 8 * 1 := by norm_num
      _ ≤ 8 * 2 ^ ((Nat.clog 2 m - 8 + 7) / 8) :=
        Nat.mul_le_mul_left 8 Nat.one_le_two_pow
  · omega
  · exact Nat.mul_le_mul_left 8 (Nat.pow_le_pow_right (by norm_num)
      (Nat.div_le_div_right (by omega)))

theorem indexOf_append_self {α : Type} [DecidableEq α] {l : List α} {t : α}
    (h : t ∉ l) : (l ++ [t]).indexOf t = l.length := by
  induction l with
  | nil => simp
  | cons a l ih =>
    have hne : ¬a = t := fun e => h (by rw [e]; exact List.mem_cons_self t l)
    have h2 : t ∉ l := fun hm => h (List.mem_cons_of_mem a hm)
    simp [List.indexOf_cons, hne, ih h2]

theorem indexOf_append_left {α : Type} [DecidableEq α] {l l₂ : List α} {x : α}
    (h : x ∈ l) : (l ++ l₂).indexOf x = l.indexOf x := by
  induction l with
  | nil => cases h
  | cons a l ih =>
    simp only [List.cons_append, List.indexOf_cons]
    by_cases hax : a = x
    · simp [hax]
    · have h2 : x ∈ l := by
        rcases List.mem_cons.1 h with he | h2
        · exact absurd he.symm hax
        · exact h2
      simp [hax, ih h2]

/-- `__add_term` on a term already in the dictionary: the state is
untouched and the term's existing code (its dictionary position) is
returned. -/
theorem addTerm_mem {α : Type} [DecidableEq α] {st : EnumState α}
    (hinv : EnumInv st) {t : α} (ht : t ∈ st.elements) :
    addTerm st t = (st, st.elements.indexOf t) := by
  obtain ⟨hnd, hrev, hdata, hub⟩ := hinv
  have hlt : st.elements.indexOf t < st.elements.length := List.indexOf_lt_length.2 ht
  have hle : st.elements.length ≤ 2 ^ enumBits st := le_pow_uintPrecisionBits _
  simp only [addTerm, hrev, mapElements, if_pos ht]
  rw [Nat.mod_eq_of_lt (lt_of_lt_of_le hlt hle)]

/-- `__add_term` on a new term: the term is appended to the dictionary,
the reverse map and width are rebuilt for the new size, all previously
stored codes keep their exact numeric values, and the new term's code is
the old dictionary size. -/
theorem addTerm_new {α : Type} [DecidableEq α] {st : EnumState α}
    (hinv : EnumInv st) {t : α} (ht : t ∉ st.elements) :
    addTerm st t
      = ({ data := st.data,
           elements := st.elements ++ [t],
           revidx := mapElements (uintPrecisionBits (st.elements.length + 1))
             (st.elements ++ [t]),
           ubits := some (uintPrecisionBits (st.elements.length + 1)) },
         st.elements.length) := by
  obtain ⟨sd, se, sr, su⟩ := st
  obtain ⟨hnd, hrev, hdata, hub⟩ := hinv
  simp only [enumBits] at hrev hdata hub
  simp only at hrev hdata hub ht ⊢
  have hlen1 : (se ++ [t]).length = se.length + 1 := by simp
  have hfit : se.length + 1 ≤ 2 ^ uintPrecisionBits (se.length + 1) :=
    le_pow_uintPrecisionBits _
  have hcode : se.length % 2 ^ uintPrecisionBits (se.length + 1) = se.length :=
    Nat.mod_eq_of_lt (by omega)
  have hidx : (se ++ [t]).indexOf t = se.length := indexOf_append_self ht
  have hrevt : sr t = none := by
    simp only [hrev, mapElements]
    exact if_neg ht
  simp only [addTerm, hrevt, hlen1]
  split
  · next hsame =>
    have hne : se.isEmpty ≠ true := by
      intro hemp
      rw [if_pos hemp] at hub
      rw [hub] at hsame
      cases hsame
    rw [if_neg hne] at hub
    have hbits : uintPrecisionBits se.length = uintPrecisionBits (se.length + 1) := by
      rw [hub] at hsame
      injection hsame
    have hreveq : (fun x => if x = t then
        some ((se.length + 1 - 1) % 2 ^ uintPrecisionBits (se.length + 1)) else sr x)
        = mapElements (uintPrecisionBits (se.length + 1)) (se ++ [t]) := by
      funext x
      by_cases hx : x = t
      · subst hx
        rw [if_pos rfl]
        simp only [mapElements]
        rw [if_pos (List.mem_append_right _ (List.mem_singleton_self x)),
          hidx, hcode, Nat.add_sub_cancel, hcode]
      · rw [if_neg hx, hrev]
        simp only [mapElements]
        by_cases hxm : x ∈ se
        · rw [if_pos hxm, if_pos (List.mem_append_left _ hxm),
            indexOf_append_left hxm, hbits]
        · rw [if_neg hxm, if_neg (by
            intro hmem
            rcases List.mem_append.1 hmem with h1 | h1
            · exact hxm h1
            · exact hx (List.mem_singleton.1 h1))]
    rw [hreveq, hsame, Nat.add_sub_cancel, hcode]
  · next hdiff =>
    have hmono : enumBits ⟨sd, se, sr, su⟩ ≤ uintPrecisionBits (se.length + 1) :=
      uintPrecisionBits_mono (Nat.le_succ _)
    have hdid : sd.map (fun v => v % 2 ^ uintPrecisionBits (se.length + 1)) = sd := by
      apply (List.map_congr_left ?_).trans (List.map_id sd)
      intro v hv
      exact Nat.mod_eq_of_lt (lt_of_lt_of_le (hdata v hv)
        (Nat.pow_le_pow_right (by norm_num) hmono))
    rw [hdid]
    simp only [mapElements]
    rw [if_pos (List.mem_append_right _ (List.mem_singleton_self t)),
      hidx, hcode, Option.getD_some]

theorem enumInv_empty (α : Type) [DecidableEq α] : EnumInv (emptyEnum α) := by
  refine ⟨List.nodup_nil, ?_, ?_, rfl⟩
  · funext x
    simp [emptyEnum, mapElements]
  · intro c hc
    cases hc

/-- Every term-mode `add_row` preserves the `EnumData` state invariant. -/
theorem enumInv_addTermRow {α : Type} [DecidableEq α] {st : EnumState α}
    (hinv : EnumInv st) (t : α) : EnumInv (enumAddTermRow st t) := by
  by_cases ht : t ∈ st.elements
  · obtain ⟨hnd, hrev, hdata, hub⟩ := hinv
    simp only [enumAddTermRow, addTerm_mem ⟨hnd, hrev, hdata, hub⟩ ht]
    refine ⟨hnd, hrev, ?_, hub⟩
    intro c hc
    rcases List.mem_append.1 hc with h1 | h1
    · exact hdata c h1
    · rw [List.mem_singleton.1 h1]
      exact lt_of_lt_of_le (List.indexOf_lt_length.2 ht) (le_pow_uintPrecisionBits _)
  · obtain ⟨hnd, hrev, hdata, hub⟩ := hinv
    simp only [enumAddTermRow, addTerm_new ⟨hnd, hrev, hdata, hub⟩ ht]
    have hmono : enumBits st ≤ uintPrecisionBits (st.elements.length + 1) :=
      uintPrecisionBits_mono (Nat.le_succ _)
    have hfit : st.elements.length + 1
        ≤ 2 ^ uintPrecisionBits (st.elements.length + 1) := le_pow_uintPrecisionBits _
    refine ⟨?_, ?_, ?_, ?_⟩
    · rw [List.nodup_append]
      exact ⟨hnd, List.nodup_singleton t,
        fun a ha h2 => ht (by rwa [List.mem_singleton.1 h2] at ha)⟩
    · simp only [enumBits, List.length_append, List.length_singleton]
    · intro c hc
      simp only [enumBits, List.length_append, List.length_singleton] at hc ⊢
      rcases List.mem_append.1 hc with h1 | h1
      · exact lt_of_lt_of_le (hdata c h1)
          (Nat.pow_le_pow_right (by norm_num) hmono)
      · rw [List.mem_singleton.1 h1]
        omega
    · simp [enumBits]

theorem uintPrecisionBits_of_le {n : Nat} (h : n ≤ 256) : uintPrecisionBits n = 8 := by
  have hc : Nat.clog 2 n ≤ 8 := by
    calc Nat.clog 2 n ≤ Nat.clog 2 256 := Nat.clog_mono_right 2 h
      _ = 8 := by rw [show (256:Nat) = 2 ^ 8 by norm_num, Nat.clog_pow _ _ (by norm_num)]
  simp [uintPrecisionBits, hc]

/-- The spec's concrete enum column: terms "a", "b", "a", "c" added in
order to a fresh `EnumData`. -/
def enumExample : EnumState String :=
  enumAddTermRow (enumAddTermRow (enumAddTermRow (enumAddTermRow
    (emptyEnum String) "a") "b") "a") "c"

/-- C7: adding the terms "a","b","a","c" in order to an empty EnumData
yields the element dictionary ["a","b","c"] (insertion order of first
occurrence) and stored codes [0,1,0,2], with `get(2, index=True) = 0`;
and in general, on any reachable state, a repeated term leaves the state
unchanged and reuses its existing code (its dictionary position), while a
new term is appended to `elements` and assigned the next code, with every
previously stored code preserved numerically even when the code width
grows. -/
theorem enumData_roundtrip {α : Type} [DecidableEq α] (st : EnumState α) (t : α)
    (hinv : EnumInv st) :
    (enumExample.elements = ["a", "b", "c"] ∧
     enumExample.data = [0, 1, 0, 2] ∧
     enumGet enumExample 2 true = some (Sum.inr 0)) ∧
    (t ∈ st.elements → addTerm st t = (st, st.elements.indexOf t)) ∧
    (t ∉ st.elements →
      addTerm st t
        = ({ data := st.data,
             elements := st.elements ++ [t],
             revidx := mapElements (uintPrecisionBits (st.elements.length + 1))
               (st.elements ++ [t]),
             ubits := some (uintPrecisionBits (st.elements.length + 1)) },
           st.elements.length)) ∧
    EnumInv (enumAddTermRow st t) := by
  refine ⟨?_, fun ht => addTerm_mem hinv ht, fun ht => addTerm_new hinv ht,
    enumInv_addTermRow hinv t⟩
  have i0 := enumInv_empty String
  have h1 := addTerm_new i0 (t := "a") (by simp [emptyEnum])
  have i1 := enumInv_addTermRow i0 "a"
  have h1e : (enumAddTermRow (emptyEnum String) "a").elements = ["a"] := by
    rw [enumAddTermRow, h1]
    simp [emptyEnum]
  have h1d : (enumAddTermRow (emptyEnum String) "a").data = [0] := by
    rw [enumAddTermRow, h1]
    simp [emptyEnum]
  have h2 := addTerm_new i1 (t := "b") (by rw [h1e]; simp)
  have i2 := enumInv_addTermRow i1 "b"
  have h2e : (enumAddTermRow (enumAddTermRow (emptyEnum String) "a") "b").elements
      = ["a", "b"] := by
    rw [enumAddTermRow, h2]
    simp [h1e]
  have h2d : (enumAddTermRow (enumAddTermRow (emptyEnum String) "a") "b").data
      = [0, 1] := by
    rw [enumAddTermRow, h2]
    simp [h1d, h1e]
  have h3 := addTerm_mem i2 (t := "a") (by rw [h2e]; simp)
  have i3 := enumInv_addTermRow i2 "a"
  have h3e : (enumAddTermRow (enumAddTermRow (enumAddTermRow (emptyEnum String) "a")
      "b") "a").elements = ["a", "b"] := by
    rw [enumAddTermRow, h3]
    simp [h2e]
  have h3d : (enumAddTermRow (enumAddTermRow (enumAddTermRow (emptyEnum String) "a")
      "b") "a").data = [0, 1, 0] := by
    rw [enumAddTermRow, h3]
    simp [h2d, h2e]
  have h4 := addTerm_new i3 (t := "c") (by rw [h3e]; simp)
  have h4e : enumExample.elements = ["a", "b", "c"] := by
    rw [enumExample, enumAddTermRow, h4]
    simp [h3e]
  have h4d : enumExample.data = [0, 1, 0, 2] := by
    rw [enumExample, enumAddTermRow, h4]
    simp [h3d, h3e]
  refine ⟨h4e, h4d, ?_⟩
  rw [enumGet, h4d]
  rfl

/-- Witness for C7 at a fresh `Nat`-valued enum column and the term 5. -/
theorem enumData_roundtrip_witness :
    ((enumExample.elements = ["a", "b", "c"] ∧
      enumExample.data = [0, 1, 0, 2] ∧
      enumGet enumExample 2 true = some (Sum.inr 0)) ∧
     (5 ∈ (emptyEnum Nat).elements →
       addTerm (emptyEnum Nat) 5 = (emptyEnum Nat, (emptyEnum Nat).elements.indexOf 5)) ∧
     (5 ∉ (emptyEnum Nat).elements →
       addTerm (emptyEnum Nat) 5
         = ({ data := (emptyEnum Nat).data,
              elements := (emptyEnum Nat).elements ++ [5],
              revidx := mapElements
                (uintPrecisionBits ((emptyEnum Nat).elements.length + 1))
                ((emptyEnum Nat).elements ++ [5]),
              ubits := some (uintPrecisionBits ((emptyEnum Nat).elements.length + 1)) },
            (emptyEnum Nat).elements.length)) ∧
     EnumInv (enumAddTermRow (emptyEnum Nat) 5)) :=
  enumData_roundtrip (emptyEnum Nat) 5 (enumInv_empty Nat)

/-- C10: `EnumData.add_row(val, index=True)` appends the given value
directly as an integer code: the `elements` dictionary is neither
consulted nor extended, the reverse map and code width are untouched, no
re-encoding of stored codes occurs, and the value is accepted even when
it is not a valid position in `elements` (the statement quantifies over
every `n`, with no bound relating `n` to `st.elements.length`). -/
theorem enumData_add_row_index {α : Type} [DecidableEq α] (st : EnumState α) (n : Nat) :
    enumAddRow st (Sum.inr n) true = some { st with data := st.data ++ [n] } ∧
    (enumAddRow st (Sum.inr n) true).map EnumState.elements = some st.elements ∧
    (enumAddRow st (Sum.inr n) true).map EnumState.revidx = some st.revidx ∧
    (enumAddRow st (Sum.inr n) true).map EnumState.ubits = some st.ubits ∧
    (enumAddRow st (Sum.inr n) true).map EnumState.data = some (st.data ++ [n]) := by
  refine ⟨rfl, ?_, ?_, ?_, ?_⟩ <;> simp [enumAddRow]

/-! ## Container ownership graph (`container.py`, `AbstractContainer`)

The object graph is a heap: a list of objects addressed by position
(Python object identity).  Each object records whether its class is a
`Container` subclass (plain `Data`/`AbstractContainer` objects skip the
child/modified bookkeeping), its parent slot, its ordered children, and
its modified flag.  The weak placeholder (`Proxy`) parent used during
build is kept abstract: `matches` is passed in as an oracle, and
`add_candidate` mutates only the proxy, so the heap is unchanged
(modelled from the spec: the `Proxy` class itself is outside `src/`). -/

/-- The parent slot: `None`, a concrete container (heap id), or a weak
placeholder proxy (identified by a tag). -/
inductive ParentRef where
  | none
  | real (id : Nat)
  | placeholder (tag : Nat)
deriving Repr, DecidableEq

structure Obj where
  isContainerClass : Bool
  parent : ParentRef
  children : List Nat
  modified : Bool
deriving Repr, DecidableEq

abbrev Heap := List Obj

/-- The identity-relevant skeleton of an object: everything except the
modified flag. -/
def skel (o : Obj) : Bool × ParentRef × List Nat :=
  (o.isContainerClass, o.parent, o.children)

/-- `AbstractContainer.set_modified()` (with the default `modified=True`)
starting at object `i`: set the flag, then recurse into the parent while
it is a `Container`.  The fuel bounds the walk; `none` models the
unbounded recursion a cyclic parent chain would cause in the source
(or a dangling id, which cannot occur in a well-formed object graph). -/
def setModifiedFuel (h : Heap) : Nat → Nat → Option Heap
  | 0, _ => none
  | fuel + 1, i =>
    match h[i]? with
    | Option.none => Option.none
    | some o =>
      let h' := h.set i { o with modified := true }
      match o.parent with
      | .real j =>
        match h'[j]? with
        | some p => if p.isContainerClass then setModifiedFuel h' fuel j else some h'
        | Option.none => Option.none
      | _ => some h'

/-- The class/parent skeleton of the heap: what the `set_modified` walk
inspects (the modified flags it writes are not part of it). -/
def skels (h : Heap) : List (Bool × ParentRef) :=
  h.map (fun o => (o.isContainerClass, o.parent))

/-- The ids visited by `set_modified` from `i`: `i` itself followed by
every ancestor reached through `Container`-class parents, computed on the
heap skeleton. -/
def chainFuel (s : List (Bool × ParentRef)) : Nat → Nat → Option (List Nat)
  | 0, _ => Option.none
  | fuel + 1, i =>
    match s[i]? with
    | Option.none => Option.none
    | some (_, pr) =>
      match pr with
      | .real j =>
        match s[j]? with
        | some (cls, _) =>
          if cls then (chainFuel s fuel j).map (i :: ·) else some [i]
        | Option.none => Option.none
      | _ => some [i]

/-- Result of the `parent` property setter. -/
inductive SPRes where
  | ok (h : Heap)
  | err
  | stuck
deriving Repr, DecidableEq

/-- The `AbstractContainer.parent` setter on `child` with the new value
`pv`, given the proxy-resolution oracle `pmatch` (the Proxy `matches` method):

* same parent (object identity) — silently return;
* existing concrete (`AbstractContainer`) parent — raise `ValueError`
  ("Cannot reassign parent"), with no mutation;
* existing placeholder parent — raise on a `None` value; bind, append and
  notify when the proxy matches; otherwise only record a candidate on the
  proxy (heap unchanged);
* no parent — bind; when the new parent's class is `Container`, append
  the child to its children and mark it (and, transitively, its
  `Container` ancestors) modified.

`stuck` marks model-artifact situations (dangling ids, fuel exhaustion on
a cyclic graph, a placeholder assigned over a placeholder) that a
well-formed object graph never reaches. -/
def setParent (pmatch : Nat → Nat → Bool) (h : Heap) (child : Nat)
    (pv : ParentRef) : SPRes :=
  match h[child]? with
  | Option.none => .stuck
  | some c =>
    if c.parent = pv then .ok h
    else
      match c.parent with
      | .real _ => .err
      | .placeholder tag =>
        match pv with
        | .none => .err
        | .real j =>
          if pmatch tag j then
            let h1 := h.set child { c with parent := .real j }
            match h1[j]? with
            | Option.none => .stuck
            | some p =>
              let h2 := h1.set j { p with children := p.children ++ [child] }
              match setModifiedFuel h2 (h2.length + 1) j with
              | some h3 => .ok h3
              | Option.none => .stuck
          else .ok h
        | .placeholder _ => .stuck
      | .none =>
        match pv with
        | .real j =>
          let h1 := h.set child { c with parent := .real j }
          match h1[j]? with
          | Option.none => .stuck
          | some p =>
            if p.isContainerClass then
              let h2 := h1.set j { p with children := p.children ++ [child] }
              match setModifiedFuel h2 (h2.length + 1) j with
              | some h3 => .ok h3
              | Option.none => .stuck
            else .ok h1
        | _ => .ok (h.set child { c with parent := pv })

theorem set_of_getElem? {α : Type} {l : List α} {i : Nat} {a : α}
    (h : l[i]? = some a) : l.set i a = l := by
  apply List.ext_getElem?
  intro k
  by_cases hk : i = k
  · subst hk
    have hlt : i < l.length := by
      by_contra hge
      rw [List.getElem?_eq_none (Nat.le_of_not_lt hge)] at h
      cases h
    rw [List.getElem?_set_eq_of_lt a hlt, h]
  · rw [List.getElem?_set_ne hk]

theorem skel_set_modified {h : Heap} {i : Nat} {o : Obj} (hi : h[i]? = some o)
    (b : Bool) :
    ∀ k : Nat, ((h.set i { o with modified := b })[k]?).map skel
      = (h[k]?).map skel := by
  intro k
  by_cases hk : i = k
  · subst hk
    have hlt : i < h.length := by
      by_contra hge
      rw [List.getElem?_eq_none (Nat.le_of_not_lt hge)] at hi
      cases hi
    rw [List.getElem?_set_eq_of_lt _ hlt, hi]
    rfl
  · rw [List.getElem?_set_ne hk]

theorem skels_set (h : Heap) (i : Nat) (o : Obj) :
    skels (h.set i o) = (skels h).set i (o.isContainerClass, o.parent) := by
  simp only [skels, List.map_set]

theorem skels_set_modified {h : Heap} {i : Nat} {o : Obj}
    (hi : h[i]? = some o) (b : Bool) :
    skels (h.set i { o with modified := b }) = skels h := by
  rw [skels_set]
  apply set_of_getElem?
  simp only [skels, List.getElem?_map, hi, Option.map_some']

theorem skel_eq_elim {h h' : Heap}
    (hsk : ∀ k : Nat, (h'[k]?).map skel = (h[k]?).map skel)
    {p : Nat} {q : Obj} (hq : h[p]? = some q) :
    ∃ q', h'[p]? = some q' ∧ q'.isContainerClass = q.isContainerClass ∧
      q'.parent = q.parent ∧ q'.children = q.children := by
  have hp := hsk p
  rw [hq] at hp
  cases hpp : h'[p]? with
  | none => rw [hpp] at hp; cases hp
  | some q' =>
    rw [hpp] at hp
    have hsq : skel q' = skel q := by injection hp
    simp only [skel, Prod.mk.injEq] at hsq
    exact ⟨q', rfl, hsq.1, hsq.2.1, hsq.2.2⟩

theorem skels_getElem (h : Heap) (k : Nat) :
    (skels h)[k]? = (h[k]?).map (fun o => (o.isContainerClass, o.parent)) := by
  simp only [skels, List.getElem?_map]

/-- The `set_modified` walk succeeds along any finite ancestor chain,
preserves every object's skeleton (class, parent, children), sets the
modified flag of exactly the chain's objects, and leaves every other
modified flag unchanged. -/
theorem setModifiedFuel_spec :
    ∀ (fuel : Nat) (h : Heap) (j : Nat) (ch : List Nat),
      chainFuel (skels h) fuel j = some ch →
      ∃ h3 : Heap, setModifiedFuel h fuel j = some h3 ∧
        (∀ k : Nat, (h3[k]?).map skel = (h[k]?).map skel) ∧
        (∀ k ∈ ch, (h3[k]?).map Obj.modified = some true) ∧
        (∀ k : Nat, k ∉ ch →
          (h3[k]?).map Obj.modified = (h[k]?).map Obj.modified) := by
  intro fuel
  induction fuel with
  | zero =>
    intro h j ch hch
    rw [chainFuel] at hch
    cases hch
  | succ f ih =>
    intro h j ch hch
    rw [chainFuel] at hch
    simp only [skels_getElem] at hch
    cases hcj : h[j]? with
    | none =>
      simp only [hcj, Option.map_none'] at hch
      cases hch
    | some o =>
      obtain ⟨ocls, opar, och, omod⟩ := o
      simp only [hcj, Option.map_some'] at hch
      have hlt : j < h.length := by
        by_contra hge
        rw [List.getElem?_eq_none (Nat.le_of_not_lt hge)] at hcj
        cases hcj
      have hskel := skel_set_modified hcj true
      have hjmod : (h.set j (Obj.mk ocls opar och true))[j]?
          = some (Obj.mk ocls opar och true) := List.getElem?_set_eq_of_lt _ hlt
      have hother : ∀ k : Nat, k ≠ j →
          ((h.set j (Obj.mk ocls opar och true))[k]?).map Obj.modified
            = (h[k]?).map Obj.modified := by
        intro k hk
        rw [List.getElem?_set_ne (Ne.symm hk)]
      cases opar with
      | real p =>
        cases hcp : h[p]? with
        | none =>
          simp only [hcp, Option.map_none'] at hch
          cases hch
        | some q =>
          simp only [hcp, Option.map_some'] at hch
          obtain ⟨q', hq', hqC, _, _⟩ := skel_eq_elim hskel hcp
          by_cases hc : q.isContainerClass = true
          · rw [if_pos hc] at hch
            cases hch' : chainFuel (skels h) f p with
            | none =>
              rw [hch'] at hch
              cases hch
            | some ch' =>
              rw [hch'] at hch
              simp only [Option.map_some', Option.some.injEq] at hch
              subst hch
              obtain ⟨h3, hsm, hs3, hm3, hn3⟩ :=
                ih (h.set j (Obj.mk ocls (ParentRef.real p) och true)) p ch'
                  (by rw [skels_set_modified hcj true]; exact hch')
              refine ⟨h3, ?_, ?_, ?_, ?_⟩
              · simp only [setModifiedFuel, hcj, hq', hqC, if_pos hc]
                exact hsm
              · intro k
                rw [hs3 k, hskel k]
              · intro k hk
                rcases List.mem_cons.1 hk with rfl | hk'
                · by_cases hkch : k ∈ ch'
                  · exact hm3 k hkch
                  · rw [hn3 k hkch, hjmod]
                    rfl
                · exact hm3 k hk'
              · intro k hk
                have hkj : k ≠ j := fun e => hk (e ▸ List.mem_cons_self _ _)
                have hkch : k ∉ ch' := fun e => hk (List.mem_cons_of_mem _ e)
                rw [hn3 k hkch, hother k hkj]
          · rw [if_neg hc] at hch
            injection hch with hch
            subst hch
            refine ⟨h.set j (Obj.mk ocls (ParentRef.real p) och true), ?_,
                hskel, ?_, ?_⟩
            · simp only [setModifiedFuel, hcj, hq', hqC, if_neg hc]
            · intro k hk
              rw [List.mem_singleton.1 hk, hjmod]
              rfl
            · intro k hk
              exact hother k (fun e => hk (e ▸ List.mem_singleton_self _))
      | none =>
        injection hch with hch
        subst hch
        refine ⟨h.set j (Obj.mk ocls ParentRef.none och true), ?_,
            hskel, ?_, ?_⟩
        · simp only [setModifiedFuel, hcj]
        · intro k hk
          rw [List.mem_singleton.1 hk, hjmod]
          rfl
        · intro k hk
          exact hother k (fun e => hk (e ▸ List.mem_singleton_self _))
      | placeholder tag =>
        injection hch with hch
        subst hch
        refine ⟨h.set j (Obj.mk ocls (ParentRef.placeholder tag) och true), ?_,
            hskel, ?_, ?_⟩
        · simp only [setModifiedFuel, hcj]
        · intro k hk
          rw [List.mem_singleton.1 hk, hjmod]
          rfl
        · intro k hk
          exact hother k (fun e => hk (e ▸ List.mem_singleton_self _))

theorem chainFuel_head {s : List (Bool × ParentRef)} {fuel j : Nat}
    {ch : List Nat} (hch : chainFuel s fuel j = some ch) :
    ∃ ch', ch = j :: ch' := by
  cases fuel with
  | zero => rw [chainFuel] at hch; cases hch
  | succ f =>
    rw [chainFuel] at hch
    cases hcj : s[j]? with
    | none =>
      simp only [hcj] at hch
      cases hch
    | some e =>
      obtain ⟨cls, pr⟩ := e
      simp only [hcj] at hch
      cases hpr : pr with
      | real p =>
        simp only [hpr] at hch
        cases hcp : s[p]? with
        | none =>
          simp only [hcp] at hch
          cases hch
        | some e2 =>
          obtain ⟨cls2, pr2⟩ := e2
          simp only [hcp] at hch
          by_cases hc : cls2 = true
          · rw [if_pos hc] at hch
            cases hch' : chainFuel s f p with
            | none => rw [hch'] at hch; cases hch
            | some ch' =>
              rw [hch'] at hch
              simp only [Option.map_some', Option.some.injEq] at hch
              exact ⟨ch', hch.symm⟩
          · rw [if_neg hc] at hch
            injection hch with hch
            exact ⟨[], hch.symm⟩
      | none =>
        simp only [hpr] at hch
        injection hch with hch
        exact ⟨[], hch.symm⟩
      | placeholder tag =>
        simp only [hpr] at hch
        injection hch with hch
        exact ⟨[], hch.symm⟩

/-- The class/parent skeleton of the heap right after the child's parent
slot is bound to `j` (the skeleton `set_modified` then walks). -/
def bindSkel (h : Heap) (child j : Nat) (c : Obj) : List (Bool × ParentRef) :=
  (skels h).set child (c.isContainerClass, ParentRef.real j)

/-- C8: reassigning a parent over an existing concrete (`AbstractContainer`)
parent different from the new value raises `ValueError`; assigning a
`Container`-class parent to an unparented container binds the child exactly
once, appends it to the parent's ordered children, marks the parent and
transitively every `Container` ancestor modified, and leaves every other
object untouched. -/
theorem container_parent_assignment (pmatch : Nat → Nat → Bool) (h : Heap)
    (child : Nat) (c : Obj) (hc : h[child]? = some c) :
    (∀ i : Nat, c.parent = ParentRef.real i →
      ∀ pv : ParentRef, pv ≠ ParentRef.real i →
        setParent pmatch h child pv = SPRes.err) ∧
    (∀ j : Nat, c.parent = ParentRef.none → child ≠ j →
      ∀ p : Obj, h[j]? = some p → p.isContainerClass = true →
      ∀ ch : List Nat,
        chainFuel (bindSkel h child j c) (h.length + 1) j = some ch →
        ∃ h3 : Heap, setParent pmatch h child (ParentRef.real j) = SPRes.ok h3 ∧
          (∃ c3 : Obj, h3[child]? = some c3 ∧ c3.parent = ParentRef.real j ∧
            c3.children = c.children) ∧
          (∃ p3 : Obj, h3[j]? = some p3 ∧
            p3.children = p.children ++ [child] ∧ p3.parent = p.parent) ∧
          (∀ k ∈ ch, (h3[k]?).map Obj.modified = some true) ∧
          (∀ k : Nat, k ≠ child → k ∉ ch →
            (h3[k]?).map skel = (h[k]?).map skel ∧
            (h3[k]?).map Obj.modified = (h[k]?).map Obj.modified)) := by
  constructor
  · intro i hpi pv hpv
    have hne : ¬ (c.parent = pv) := by
      rw [hpi]
      exact fun e => hpv e.symm
    simp only [setParent, hc]
    rw [if_neg hne, hpi]
  · intro j hpn hcj p hp hcls ch hch
    have hne : ¬ (c.parent = ParentRef.real j) := by
      rw [hpn]
      intro e
      cases e
    have hlt_c : child < h.length := by
      by_contra hge
      rw [List.getElem?_eq_none (Nat.le_of_not_lt hge)] at hc
      cases hc
    have hlt_j : j < h.length := by
      by_contra hge
      rw [List.getElem?_eq_none (Nat.le_of_not_lt hge)] at hp
      cases hp
    have h1j : (h.set child { c with parent := ParentRef.real j })[j]?
        = some p := by
      rw [List.getElem?_set_ne hcj, hp]
    have hXj : ((skels h).set child (c.isContainerClass, ParentRef.real j))[j]?
        = some (p.isContainerClass, p.parent) := by
      rw [List.getElem?_set_ne hcj]
      simp only [skels_getElem, hp, Option.map_some']
    have hsk2 : skels ((h.set child { c with parent := ParentRef.real j }).set j
        { p with children := p.children ++ [child] }) = bindSkel h child j c := by
      rw [skels_set, skels_set]
      exact set_of_getElem? hXj
    have hlen2 : ((h.set child { c with parent := ParentRef.real j }).set j
        { p with children := p.children ++ [child] }).length = h.length := by
      rw [List.length_set, List.length_set]
    obtain ⟨h3, hsm, hs3, hm3, hn3⟩ :=
      setModifiedFuel_spec (h.length + 1)
        ((h.set child { c with parent := ParentRef.real j }).set j
          { p with children := p.children ++ [child] }) j ch
        (by rw [hsk2]; exact hch)
    have h2c : ((h.set child { c with parent := ParentRef.real j }).set j
        { p with children := p.children ++ [child] })[child]?
        = some { c with parent := ParentRef.real j } := by
      rw [List.getElem?_set_ne (Ne.symm hcj)]
      exact List.getElem?_set_eq_of_lt _ hlt_c
    have h2p : ((h.set child { c with parent := ParentRef.real j }).set j
        { p with children := p.children ++ [child] })[j]?
        = some { p with children := p.children ++ [child] } := by
      have hb : j < (h.set child { c with parent := ParentRef.real j }).length := by
        rw [List.length_set]
        exact hlt_j
      exact List.getElem?_set_eq_of_lt _ hb
    obtain ⟨c3, hc3, _, hc3p, hc3ch⟩ := skel_eq_elim hs3 h2c
    obtain ⟨p3, hp3, _, hp3p, hp3ch⟩ := skel_eq_elim hs3 h2p
    refine ⟨h3, ?_, ⟨c3, hc3, hc3p, hc3ch⟩, ⟨p3, hp3, hp3ch, hp3p⟩, hm3, ?_⟩
    · simp only [setParent, hc]
      rw [if_neg hne, hpn]
      simp only [h1j]
      rw [if_pos hcls, hlen2, hsm]
    · intro k hk1 hk2
      obtain ⟨ch', hhead⟩ := chainFuel_head hch
      have hkj : k ≠ j := by
        intro e
        exact hk2 (e ▸ (hhead ▸ List.mem_cons_self _ _))
      have h2k : ((h.set child { c with parent := ParentRef.real j }).set j
          { p with children := p.children ++ [child] })[k]? = h[k]? := by
        rw [List.getElem?_set_ne (Ne.symm hkj), List.getElem?_set_ne (Ne.symm hk1)]
      exact ⟨by rw [hs3 k, h2k], by rw [hn3 k hk2, h2k]⟩

def w8heap : Heap :=
  [Obj.mk true ParentRef.none [] false,
   Obj.mk true (ParentRef.real 0) [] false,
   Obj.mk true ParentRef.none [] false]

def w8child : Obj := Obj.mk true ParentRef.none [] false

def w8parent : Obj := Obj.mk true (ParentRef.real 0) [] false

theorem container_parent_assignment_witness :
    (w8heap[2]? = some w8child ∧ w8child.parent = ParentRef.none ∧
      w8heap[1]? = some w8parent ∧ w8parent.isContainerClass = true ∧
      chainFuel (bindSkel w8heap 2 1 w8child) (w8heap.length + 1) 1
        = some [1, 0]) ∧
    (∃ h3 : Heap,
      setParent (fun _ _ => false) w8heap 2 (ParentRef.real 1) = SPRes.ok h3 ∧
      (∃ c3 : Obj, h3[2]? = some c3 ∧ c3.parent = ParentRef.real 1 ∧
        c3.children = w8child.children) ∧
      (∃ p3 : Obj, h3[1]? = some p3 ∧
        p3.children = w8parent.children ++ [2] ∧ p3.parent = w8parent.parent) ∧
      (∀ k ∈ [1, 0], (h3[k]?).map Obj.modified = some true) ∧
      (∀ k : Nat, k ≠ 2 → k ∉ [1, 0] →
        (h3[k]?).map skel = (w8heap[k]?).map skel ∧
        (h3[k]?).map Obj.modified = (w8heap[k]?).map Obj.modified)) :=
  ⟨⟨rfl, rfl, rfl, rfl, rfl⟩,
    (container_parent_assignment (fun _ _ => false) w8heap 2 w8child rfl).2
      1 rfl (by decide) w8parent rfl rfl [1, 0] rfl⟩

/-- The string-key view of a `DynamicTable`: the `id` column object, the
`__colids` dict (public column name → position in `__df_cols`), the
`__df_cols` list of column objects, and the `__indices` dict (index column
name → `VectorIndex` object).  `β` stands for the Python column objects. -/
structure StrTable (β : Type) where
  idObj : β
  colids : List (String × Nat)
  dfCols : List β
  indices : List (String × β)

/-- `DynamicTable.get` restricted to a string `key` (table.py 942-951):
`'id'` returns the id object; a `__colids` hit returns the positioned
`__df_cols` entry; a `__indices` hit returns the index object; otherwise
the supplied `default` is returned.  `Option.none` plays Python `None`
(the out-of-range `__df_cols` access of an ill-formed table also maps to
`Option.none`; with a well-formed `colids` it cannot occur). -/
def dtGetStr {β : Type} (t : StrTable β) (key : String) (default : Option β) :
    Option β :=
  if key = "id" then some t.idObj
  else
    match t.colids.lookup key with
    | some i => t.dfCols[i]?
    | Option.none =>
      match t.indices.lookup key with
      | some v => some v
      | Option.none => default

/-- `DynamicTable.__getitem__` on a string key (table.py 896-900):
delegate to `get` with the default `None`, and raise `KeyError(key)` when
the result is `None`. -/
def dtGetItemStr {β : Type} (t : StrTable β) (key : String) :
    Except String β :=
  match dtGetStr t key Option.none with
  | some v => Except.ok v
  | Option.none => Except.error key

/-- C9: for a string key naming neither a public column, nor an index
column, nor the literal `'id'`, `DynamicTable.get` returns the supplied
default (`None` when omitted) without raising, while the subscript form
raises `KeyError` with that key. -/
theorem dynamicTable_get_unknown_key {β : Type} (t : StrTable β)
    (key : String) (hid : key ≠ "id")
    (hcol : t.colids.lookup key = Option.none)
    (hidx : t.indices.lookup key = Option.none) :
    (∀ default : Option β, dtGetStr t key default = default) ∧
    dtGetItemStr t key = Except.error key := by
  have hget : ∀ default : Option β, dtGetStr t key default = default := by
    intro default
    rw [dtGetStr, if_neg hid, hcol, hidx]
  exact ⟨hget, by rw [dtGetItemStr, hget Option.none]⟩

def w9table : StrTable Nat :=
  StrTable.mk 100 [("a", 0)] [7] [("a_index", 9)]

theorem dynamicTable_get_unknown_key_witness :
    ((¬ "b" = "id") ∧ w9table.colids.lookup "b" = Option.none ∧
      w9table.indices.lookup "b" = Option.none) ∧
    (∀ default : Option Nat, dtGetStr w9table "b" default = default) ∧
    dtGetItemStr w9table "b" = Except.error "b" :=
  ⟨⟨by decide, by decide, by decide⟩,
    dynamicTable_get_unknown_key w9table "b" (by decide) (by decide) (by decide)⟩

/-- A materialized column as `add_row` sees it: `isIndex` marks a
`VectorIndex` (skipped by the term-set check and fed through `add_vector`),
`termSet` the optional `term_set.validate` predicate, `data` the stored
cells.  Cell values are `Option γ` with `Option.none` playing Python
`None`. -/
structure TCol (γ : Type) where
  isIndex : Bool
  termSet : Option (Option γ → Bool)
  data : List (Option γ)

/-- The `add_row`-relevant state of a `DynamicTable`: the id column, the
`__colids` dict (name → position in `__df_cols`), `__df_cols`, and the
names of the predefined `__columns__` specs (modelled as plain scalar
columns: no `index`/`enum` flags). -/
structure DTable (γ : Type) where
  ids : List Int
  colids : List (String × Nat)
  dfCols : List (TCol γ)
  predefined : List String

/-- The errors `add_row`/`add_column` can raise. -/
inductive RowErr (γ : Type) where
  | missingSingle (name : String)
  | badTermData (bad : List (Option γ))
  | keysMismatch (extra missing : List String)
  | colLenMismatch
  | duplicateId
  | internalErr
deriving Repr, DecidableEq

/-- `DynamicTable.add_column` as invoked from `add_row` for a predefined
spec (no data): build the empty column, raise when its length differs from
`len(self.id)` (table.py 854), and only then register it in `__colids`
and `__df_cols` (856-859). -/
def add_column_empty {γ : Type} (t : DTable γ) (name : String) :
    DTable γ × Option (RowErr γ) :=
  if t.ids.length ≠ 0 then (t, some RowErr.colLenMismatch)
  else
    ({ t with
        colids := t.colids ++ [(name, t.dfCols.length)]
        dfCols := t.dfCols ++ [TCol.mk false Option.none []] }, Option.none)

/-- The first `add_row` loop over `__colids` (table.py 589-602): raise
`"column '%s' missing"` at the first name absent from `data`, skip
`VectorIndex` columns, and collect the term-set rejects into `bad_data`
(in iteration order). -/
def collectBad {γ : Type} (dfCols : List (TCol γ))
    (data : List (String × Option γ)) :
    List (String × Nat) → Except (RowErr γ) (List (Option γ))
  | [] => Except.ok []
  | (colname, colnum) :: rest =>
    match data.lookup colname with
    | Option.none => Except.error (RowErr.missingSingle colname)
    | some v =>
      match dfCols[colnum]? with
      | Option.none => Except.error RowErr.internalErr
      | some col =>
        if col.isIndex then collectBad dfCols data rest
        else
          match col.termSet with
          | Option.none => collectBad dfCols data rest
          | some ts =>
            if ts v then collectBad dfCols data rest
            else (collectBad dfCols data rest).map (v :: ·)

/-- The extra-column materialization loop (table.py 609-621): walk the
predefined specs; a spec whose name is among the extra keys is added via
`add_column` when its datum is not `None` (an `add_column` raise
propagates), and the name is removed from the extra set either way. -/
def materialize {γ : Type} (data : List (String × Option γ)) :
    DTable γ → List String → List String →
      DTable γ × List String × Option (RowErr γ)
  | t, extra, [] => (t, extra, Option.none)
  | t, extra, name :: rest =>
    if name ∈ extra then
      match data.lookup name with
      | some (some _) =>
        match add_column_empty t name with
        | (t', some e) => (t', extra, some e)
        | (t', Option.none) => materialize data t' (extra.erase name) rest
      | _ => materialize data t (extra.erase name) rest
    else materialize data t extra rest

/-- The final `add_row` loop (table.py 640-647): for each `__colids`
entry, append the datum to the column (`add_vector` and `VectorData.add_row`
both append one element). -/
def appendCols {γ : Type} (data : List (String × Option γ)) :
    List (TCol γ) → List (String × Nat) →
      List (TCol γ) × Option (RowErr γ)
  | dfCols, [] => (dfCols, Option.none)
  | dfCols, (colname, colnum) :: rest =>
    match data.lookup colname with
    | Option.none => (dfCols, some (RowErr.missingSingle colname))
    | some v =>
      match dfCols[colnum]? with
      | Option.none => (dfCols, some RowErr.internalErr)
      | some c =>
        appendCols data (dfCols.set colnum { c with data := c.data ++ [v] })
          rest

/-- `DynamicTable.add_row` (table.py 579-647; the `data.pop('id')` escape
hatch is outside the model, i.e. `"id"` is not a data key).  The returned
pair is the table state at the point of return or raise, together with the
raised error if any. -/
def add_row {γ : Type} (t : DTable γ) (data : List (String × Option γ))
    (row_id : Option Int) (enforce_unique_id : Bool) :
    DTable γ × Option (RowErr γ) :=
  let extra := (data.map Prod.fst).filter
    (fun k => (t.colids.lookup k).isNone)
  let missing := (t.colids.map Prod.fst).filter
    (fun k => (data.lookup k).isNone)
  match collectBad t.dfCols data t.colids with
  | Except.error e => (t, some e)
  | Except.ok bad =>
    if bad.length ≠ 0 then (t, some (RowErr.badTermData bad))
    else
      match materialize data t extra t.predefined with
      | (t1, extra1, some e) => (t1, some e)
      | (t1, extra1, Option.none) =>
        if extra1 ≠ [] ∨ missing ≠ [] then
          (t1, some (RowErr.keysMismatch extra1 missing))
        else
          let rid := row_id.getD (Int.ofNat t1.ids.length)
          if enforce_unique_id ∧ rid ∈ t1.ids then
            (t1, some RowErr.duplicateId)
          else
            let t2 : DTable γ := { t1 with ids := t1.ids ++ [rid] }
            match appendCols data t2.dfCols t2.colids with
            | (cols2, e2) => ({ t2 with dfCols := cols2 }, e2)

theorem collectBad_error_of_missing {γ : Type} (dfCols : List (TCol γ))
    (data : List (String × Option γ)) :
    ∀ cids : List (String × Nat), ∀ name ∈ cids.map Prod.fst,
      data.lookup name = Option.none →
      ∃ e, collectBad dfCols data cids = Except.error e := by
  intro cids
  induction cids with
  | nil =>
    intro name hm
    cases hm
  | cons hd rest ih =>
    intro name hm hl
    obtain ⟨cn, cnum⟩ := hd
    rw [List.map_cons] at hm
    rcases List.mem_cons.1 hm with heq | hm'
    · subst heq
      exact ⟨RowErr.missingSingle name, by simp only [collectBad, hl]⟩
    · obtain ⟨e, he⟩ := ih name hm' hl
      cases hlk : data.lookup cn with
      | none => exact ⟨RowErr.missingSingle cn, by simp only [collectBad, hlk]⟩
      | some v =>
        cases hdc : dfCols[cnum]? with
        | none =>
          exact ⟨RowErr.internalErr, by simp only [collectBad, hlk, hdc]⟩
        | some col =>
          by_cases hidx : col.isIndex = true
          · exact ⟨e, by simp only [collectBad, hlk, hdc, if_pos hidx]; exact he⟩
          · cases hts : col.termSet with
            | none =>
              exact ⟨e, by
                simp only [collectBad, hlk, hdc, if_neg hidx, hts]
                exact he⟩
            | some ts =>
              by_cases hv : ts v = true
              · exact ⟨e, by
                  simp only [collectBad, hlk, hdc, if_neg hidx, hts, if_pos hv]
                  exact he⟩
              · refine ⟨e, ?_⟩
                simp only [collectBad, hlk, hdc, if_neg hidx, hts, if_neg hv, he]
                rfl

theorem materialize_spec {γ : Type} (data : List (String × Option γ)) :
    ∀ (pre : List String) (t : DTable γ) (extra : List String),
      (materialize data t extra pre).1.ids = t.ids ∧
      (∀ i : Nat, ∀ c : TCol γ, t.dfCols[i]? = some c →
        ∃ c', (materialize data t extra pre).1.dfCols[i]? = some c' ∧
          c'.data = c.data) ∧
      (∀ k : String, k ∈ extra → k ∉ pre →
        k ∈ (materialize data t extra pre).2.1) := by
  intro pre
  induction pre with
  | nil =>
    intro t extra
    exact ⟨rfl, fun i c hc => ⟨c, hc, rfl⟩, fun k hk _ => hk⟩
  | cons name rest ih =>
    intro t extra
    by_cases hmem : name ∈ extra
    · cases hlk : data.lookup name with
      | none =>
        have hred : materialize data t extra (name :: rest)
            = materialize data t (extra.erase name) rest := by
          simp only [materialize, if_pos hmem, hlk]
        rw [hred]
        obtain ⟨h1, h2, h3⟩ := ih t (extra.erase name)
        refine ⟨h1, h2, ?_⟩
        intro k hk hknot
        have hkname : k ≠ name := fun e => hknot (e ▸ List.mem_cons_self _ _)
        exact h3 k ((List.mem_erase_of_ne hkname).2 hk)
          (fun e => hknot (List.mem_cons_of_mem _ e))
      | some v =>
        cases v with
        | none =>
          have hred : materialize data t extra (name :: rest)
              = materialize data t (extra.erase name) rest := by
            simp only [materialize, if_pos hmem, hlk]
          rw [hred]
          obtain ⟨h1, h2, h3⟩ := ih t (extra.erase name)
          refine ⟨h1, h2, ?_⟩
          intro k hk hknot
          have hkname : k ≠ name := fun e => hknot (e ▸ List.mem_cons_self _ _)
          exact h3 k ((List.mem_erase_of_ne hkname).2 hk)
            (fun e => hknot (List.mem_cons_of_mem _ e))
        | some w =>
          by_cases hlen : t.ids.length ≠ 0
          · have hred : materialize data t extra (name :: rest)
                = (t, extra, some RowErr.colLenMismatch) := by
              simp only [materialize, if_pos hmem, hlk, add_column_empty,
                if_pos hlen]
            rw [hred]
            exact ⟨rfl, fun i c hc => ⟨c, hc, rfl⟩, fun k hk _ => hk⟩
          · have hred : materialize data t extra (name :: rest)
                = materialize data
                    { t with
                        colids := t.colids ++ [(name, t.dfCols.length)]
                        dfCols := t.dfCols ++ [TCol.mk false Option.none []] }
                    (extra.erase name) rest := by
              simp only [materialize, if_pos hmem, hlk, add_column_empty,
                if_neg hlen]
            rw [hred]
            obtain ⟨h1, h2, h3⟩ := ih
              { t with
                  colids := t.colids ++ [(name, t.dfCols.length)]
                  dfCols := t.dfCols ++ [TCol.mk false Option.none []] }
              (extra.erase name)
            refine ⟨h1, ?_, ?_⟩
            · intro i c hc
              have hilt : i < t.dfCols.length := by
                by_contra hge
                rw [List.getElem?_eq_none (Nat.le_of_not_lt hge)] at hc
                cases hc
              refine h2 i c ?_
              show (t.dfCols ++ [TCol.mk false Option.none []])[i]? = some c
              rw [List.getElem?_append_left hilt]
              exact hc
            · intro k hk hknot
              have hkname : k ≠ name := fun e => hknot (e ▸ List.mem_cons_self _ _)
              exact h3 k ((List.mem_erase_of_ne hkname).2 hk)
                (fun e => hknot (List.mem_cons_of_mem _ e))
    · have hred : materialize data t extra (name :: rest)
          = materialize data t extra rest := by
        simp only [materialize, if_neg hmem]
      rw [hred]
      obtain ⟨h1, h2, h3⟩ := ih t extra
      refine ⟨h1, h2, ?_⟩
      intro k hk hknot
      exact h3 k hk (fun e => hknot (List.mem_cons_of_mem _ e))

/-- C5: an `add_row` whose data mapping misses the name of a materialized
column, or carries a key matching no declared column (neither materialized
nor predefined), raises an error and leaves the id column and the contents
of every pre-existing column unchanged. -/
theorem add_row_atomicity {γ : Type} (t : DTable γ)
    (data : List (String × Option γ)) (row_id : Option Int)
    (enforce_unique_id : Bool)
    (hkey : (∃ name ∈ t.colids.map Prod.fst,
              data.lookup name = Option.none) ∨
            (∃ key ∈ data.map Prod.fst,
              t.colids.lookup key = Option.none ∧ key ∉ t.predefined)) :
    ((add_row t data row_id enforce_unique_id).2).isSome = true ∧
    (add_row t data row_id enforce_unique_id).1.ids = t.ids ∧
    (∀ i : Nat, ∀ c : TCol γ, t.dfCols[i]? = some c →
      ∃ c', (add_row t data row_id enforce_unique_id).1.dfCols[i]? = some c' ∧
        c'.data = c.data) := by
  rcases hkey with ⟨name, hnm, hnl⟩ | ⟨key, hkm, hkl, hkp⟩
  · obtain ⟨e, he⟩ := collectBad_error_of_missing t.dfCols data t.colids name hnm hnl
    simp only [add_row, he]
    exact ⟨rfl, trivial, fun i c hc => ⟨c, hc, rfl⟩⟩
  · cases hcb : collectBad t.dfCols data t.colids with
    | error e =>
      simp only [add_row, hcb]
      exact ⟨rfl, trivial, fun i c hc => ⟨c, hc, rfl⟩⟩
    | ok bad =>
      by_cases hbad : bad.length ≠ 0
      · simp only [add_row, hcb, if_pos hbad]
        exact ⟨rfl, trivial, fun i c hc => ⟨c, hc, rfl⟩⟩
      · obtain ⟨hids, hcols, hextra⟩ := materialize_spec data t.predefined t
          ((data.map Prod.fst).filter (fun k => (t.colids.lookup k).isNone))
        have hkex : key ∈ (data.map Prod.fst).filter
            (fun k => (t.colids.lookup k).isNone) :=
          List.mem_filter.2 ⟨hkm, by rw [hkl]; rfl⟩
        rcases hmat : materialize data t
            ((data.map Prod.fst).filter (fun k => (t.colids.lookup k).isNone))
            t.predefined with ⟨t1, extra1, err1⟩
        rw [hmat] at hids hcols hextra
        have hkex1 : key ∈ extra1 := hextra key hkex hkp
        cases err1 with
        | some e =>
          simp only [add_row, hcb, if_neg hbad, hmat]
          exact ⟨rfl, hids, hcols⟩
        | none =>
          have hne : extra1 ≠ [] := by
            intro h0
            exact List.not_mem_nil key (h0 ▸ hkex1)
          simp only [add_row, hcb, if_neg hbad, hmat]
          rw [if_pos (Or.inl hne)]
          exact ⟨rfl, hids, hcols⟩

def w5table : DTable Nat :=
  DTable.mk [] [("x", 0)] [TCol.mk false Option.none []] []

theorem add_row_atomicity_witness :
    ((∃ name ∈ w5table.colids.map Prod.fst,
        ([("y", some 0)] : List (String × Option Nat)).lookup name
          = Option.none) ∨
      (∃ key ∈ ([("y", some 0)] : List (String × Option Nat)).map Prod.fst,
        w5table.colids.lookup key = Option.none ∧
          key ∉ w5table.predefined)) ∧
    (((add_row w5table [("y", some 0)] Option.none false).2).isSome = true ∧
      (add_row w5table [("y", some 0)] Option.none false).1.ids
        = w5table.ids ∧
      (∀ i : Nat, ∀ c : TCol Nat, w5table.dfCols[i]? = some c →
        ∃ c', (add_row w5table [("y", some 0)] Option.none false).1.dfCols[i]?
            = some c' ∧ c'.data = c.data)) :=
  ⟨by decide,
    add_row_atomicity w5table [("y", some 0)] Option.none false (by decide)⟩

def w6table : DTable Nat :=
  DTable.mk [] [("x", 0)] [TCol.mk false Option.none []] []

/-- C6: a data mapping that both misses the declared column `"x"` and
carries the unexpected key `"y"` is rejected with the single-name
`"column 'x' missing"` error raised by the first `__colids` loop
(table.py 590-592), never with the aggregate message that reports the
full missing and extra key sets together (table.py 623-630): that raise
is unreachable when a declared column is missing. -/
theorem add_row_combined_error_message :
    (add_row w6table [("y", (some 0 : Option Nat))] Option.none false).2
      = some (RowErr.missingSingle "x") ∧
    ∀ extra missing : List String,
      (add_row w6table [("y", (some 0 : Option Nat))] Option.none false).2
        ≠ some (RowErr.keysMismatch extra missing) := by
  have h1 : (add_row w6table [("y", (some 0 : Option Nat))]
      Option.none false).2 = some (RowErr.missingSingle "x") := by rfl
  refine ⟨h1, ?_⟩
  intro extra missing hem
  rw [h1] at hem
  simp at hem

/-- A column object as `DynamicTable.__init__` sees it: a plain
`VectorData`, a `VectorIndex` carrying its target column, or an `EnumData`
carrying the name of its `elements` dictionary column (modelled as the
`VectorData` named `elemName`). -/
inductive ColObj where
  | vdata (name : String)
  | vindex (name : String) (target : ColObj)
  | edata (name : String) (elemName : String)
deriving Repr, DecidableEq

def ColObj.name : ColObj → String
  | ColObj.vdata n => n
  | ColObj.vindex n _ => n
  | ColObj.edata n _ => n

/-- The `tmp_indices` walk of table.py 405-412: the `VectorIndex` itself
followed by every nested `VectorIndex` target, outermost first. -/
def ixChain : ColObj → List ColObj
  | ColObj.vindex n t =>
    match t with
    | ColObj.vindex m s => ColObj.vindex n t :: ixChain (ColObj.vindex m s)
    | _ => [ColObj.vindex n t]
  | c => [c]

/-- The non-index column at the end of a `VectorIndex` chain
(`curr_col.target` after the `while` loop of table.py 407-409). -/
def baseTarget : ColObj → ColObj
  | ColObj.vindex _ t =>
    match t with
    | ColObj.vindex m s => baseTarget (ColObj.vindex m s)
    | _ => t
  | c => c

def isVIndex : ColObj → Bool
  | ColObj.vindex _ _ => true
  | _ => false

def isEnumCol : ColObj → Bool
  | ColObj.edata _ _ => true
  | _ => false

/-- `col_dict = {col.name: col for col in columns}` (table.py 401): a
dict comprehension where a later column overwrites an earlier one of the
same name. -/
def initColDict : List ColObj → (String → Option ColObj) →
    (String → Option ColObj)
  | [], d => d
  | c :: rest, d =>
    initColDict rest (fun k => if k = c.name then some c else d k)

/-- The `indices`/`col_dict` loop of table.py 404-424: a `VectorIndex`
stores its full chain under its base target's name when strictly longer
than the chain already there; an `EnumData` not yet indexed stores itself
as the index and its `elements` column as the dict entry; a plain column
initializes its own entry to the empty chain when unset. -/
def buildMaps : List ColObj → (String → Option (List ColObj)) →
    (String → Option ColObj) →
    (String → Option (List ColObj)) × (String → Option ColObj)
  | [], ix, cd => (ix, cd)
  | c :: rest, ix, cd =>
    match c with
    | ColObj.vindex n t =>
      let tmp := ixChain (ColObj.vindex n t)
      let base := baseTarget (ColObj.vindex n t)
      if tmp.length > ((ix base.name).getD []).length then
        buildMaps rest (fun k => if k = base.name then some tmp else ix k) cd
      else buildMaps rest ix cd
    | ColObj.edata n en =>
      match ix n with
      | some _ => buildMaps rest ix cd
      | Option.none =>
        buildMaps rest
          (fun k => if k = n then some [ColObj.edata n en] else ix k)
          (fun k => if k = n then some (ColObj.vdata en) else cd k)
    | ColObj.vdata n =>
      match ix n with
      | some _ => buildMaps rest ix cd
      | Option.none =>
        buildMaps rest (fun k => if k = n then some [] else ix k) cd

/-- The `colnames`-given branch of `DynamicTable.__init__` (table.py
399-431): build `col_dict` and `indices`, then emit, for each public name
in order, `indices[name]` followed by `col_dict[name]`.  A name absent
from either dict (Python `KeyError`) yields `Option.none`. -/
def computeColumns (cols : List ColObj) (colnames : List String) :
    Option (List ColObj) :=
  let maps := buildMaps cols (fun _ => Option.none)
    (initColDict cols (fun _ => Option.none))
  (colnames.mapM (fun nm =>
    match maps.1 nm, maps.2 nm with
    | some chain, some base => some (chain ++ [base])
    | _, _ => Option.none)).map List.flatten

/-- The per-name view of the `col_dict` comprehension: the last column of
the given name wins. -/
def cdInitAt (n : String) : List ColObj → Option ColObj → Option ColObj
  | [], a => a
  | c :: rest, a => cdInitAt n rest (if n = c.name then some c else a)

/-- The per-name view of the `indices`/`col_dict` loop: how the two dict
entries of the single name `n` evolve over the columns. -/
def nameFold (n : String) : List ColObj →
    Option (List ColObj) × Option ColObj →
    Option (List ColObj) × Option ColObj
  | [], acc => acc
  | c :: rest, acc =>
    match c with
    | ColObj.vindex m t =>
      if (baseTarget (ColObj.vindex m t)).name = n then
        if (ixChain (ColObj.vindex m t)).length > ((acc.1).getD []).length
        then nameFold n rest (some (ixChain (ColObj.vindex m t)), acc.2)
        else nameFold n rest acc
      else nameFold n rest acc
    | ColObj.edata m en =>
      if m = n then
        match acc.1 with
        | some _ => nameFold n rest acc
        | Option.none =>
          nameFold n rest (some [ColObj.edata m en], some (ColObj.vdata en))
      else nameFold n rest acc
    | ColObj.vdata m =>
      if m = n then
        match acc.1 with
        | some _ => nameFold n rest acc
        | Option.none => nameFold n rest (some [], acc.2)
      else nameFold n rest acc

theorem initColDict_pointwise (n : String) :
    ∀ (cols : List ColObj) (d : String → Option ColObj),
      initColDict cols d n = cdInitAt n cols (d n) := by
  intro cols
  induction cols with
  | nil => intro d; rfl
  | cons c rest ih =>
    intro d
    simp only [initColDict, cdInitAt]
    rw [ih]

theorem buildMaps_pointwise (n : String) :
    ∀ (cols : List ColObj) (ix : String → Option (List ColObj))
      (cd : String → Option ColObj),
      ((buildMaps cols ix cd).1 n, (buildMaps cols ix cd).2 n)
        = nameFold n cols (ix n, cd n) := by
  intro cols
  induction cols with
  | nil => intro ix cd; rfl
  | cons c rest ih =>
    intro ix cd
    cases c with
    | vindex m t =>
      simp only [buildMaps, nameFold]
      by_cases hb : (baseTarget (ColObj.vindex m t)).name = n
      · by_cases hlen : (ixChain (ColObj.vindex m t)).length
            > ((ix (baseTarget (ColObj.vindex m t)).name).getD []).length
        · rw [if_pos hlen, if_pos hb]
          rw [hb] at hlen
          rw [if_pos hlen, ih, if_pos hb.symm]
        · rw [if_neg hlen, if_pos hb]
          rw [hb] at hlen
          rw [if_neg hlen, ih]
      · by_cases hlen : (ixChain (ColObj.vindex m t)).length
            > ((ix (baseTarget (ColObj.vindex m t)).name).getD []).length
        · rw [if_pos hlen, if_neg hb, ih, if_neg (fun e => hb e.symm)]
        · rw [if_neg hlen, if_neg hb, ih]
    | edata m en =>
      simp only [buildMaps, nameFold]
      by_cases hm : m = n
      · rw [if_pos hm, hm]
        cases hx : ix n with
        | some ch => simp only [hx]; rw [ih, hx]
        | none =>
          simp only [hx]
          rw [ih, if_pos (rfl : n = n), if_pos (rfl : n = n)]
      · rw [if_neg hm]
        cases hx : ix m with
        | some ch => simp only [hx]; rw [ih]
        | none =>
          simp only [hx]
          rw [ih, if_neg (fun e => hm e.symm), if_neg (fun e => hm e.symm)]
    | vdata m =>
      simp only [buildMaps, nameFold]
      by_cases hm : m = n
      · rw [if_pos hm, hm]
        cases hx : ix n with
        | some ch => simp only [hx]; rw [ih, hx]
        | none =>
          simp only [hx]
          rw [ih, if_pos (rfl : n = n)]
      · rw [if_neg hm]
        cases hx : ix m with
        | some ch => simp only [hx]; rw [ih]
        | none =>
          simp only [hx]
          rw [ih, if_neg (fun e => hm e.symm)]

theorem computeColumns_perName (cols : List ColObj) (colnames : List String) :
    computeColumns cols colnames
      = (colnames.mapM (fun nm =>
          match (nameFold nm cols (Option.none, cdInitAt nm cols Option.none)).1,
              (nameFold nm cols (Option.none, cdInitAt nm cols Option.none)).2
            with
          | some chain, some base => some (chain ++ [base])
          | _, _ => Option.none)).map List.flatten := by
  simp only [computeColumns]
  have hfun : (fun nm =>
      match (buildMaps cols (fun _ => Option.none)
            (initColDict cols (fun _ => Option.none))).1 nm,
          (buildMaps cols (fun _ => Option.none)
            (initColDict cols (fun _ => Option.none))).2 nm with
      | some chain, some base => some (chain ++ [base])
      | _, _ => (Option.none : Option (List ColObj)))
      = (fun nm =>
      match (nameFold nm cols (Option.none, cdInitAt nm cols Option.none)).1,
          (nameFold nm cols (Option.none, cdInitAt nm cols Option.none)).2
        with
      | some chain, some base => some (chain ++ [base])
      | _, _ => Option.none) := by
    funext nm
    have hp := buildMaps_pointwise nm cols (fun _ => Option.none)
      (initColDict cols (fun _ => Option.none))
    have hcd := initColDict_pointwise nm cols (fun _ => Option.none)
    rw [hcd] at hp
    have h1 : (buildMaps cols (fun _ => Option.none)
        (initColDict cols (fun _ => Option.none))).1 nm
        = (nameFold nm cols (Option.none, cdInitAt nm cols Option.none)).1 :=
      congrArg Prod.fst hp
    have h2 : (buildMaps cols (fun _ => Option.none)
        (initColDict cols (fun _ => Option.none))).2 nm
        = (nameFold nm cols (Option.none, cdInitAt nm cols Option.none)).2 :=
      congrArg Prod.snd hp
    rw [h1, h2]
  exact congrArg (fun f => (List.mapM f colnames).map List.flatten) hfun

theorem ixChain_length_pos : ∀ c : ColObj, 0 < (ixChain c).length := by
  intro c
  cases c with
  | vdata n => simp [ixChain]
  | edata n en => simp [ixChain]
  | vindex n t =>
    cases t with
    | vdata m => simp [ixChain]
    | edata m en => simp [ixChain]
    | vindex m s => simp [ixChain]

/-- The invariant of the per-name dict evolution: a stored chain is the
empty chain, a single `EnumData` (with the dict entry rewritten to its
`elements` column), or the full chain of some processed `VectorIndex`;
its length dominates every processed candidate chain; and no candidate
has been processed while the entry is unset. -/
def ChainInv (n : String) (procd : List ColObj)
    (acc : Option (List ColObj) × Option ColObj) : Prop :=
  (∀ ch : List ColObj, acc.1 = some ch →
    (ch = [] ∨
     (∃ en : String, ch = [ColObj.edata n en] ∧ ColObj.edata n en ∈ procd ∧
       acc.2 = some (ColObj.vdata en)) ∨
     (∃ v ∈ procd, isVIndex v = true ∧ (baseTarget v).name = n ∧
       ch = ixChain v)) ∧
    (∀ v ∈ procd, isVIndex v = true → (baseTarget v).name = n →
      (ixChain v).length ≤ ch.length)) ∧
  (acc.1 = Option.none →
    ∀ v ∈ procd, isVIndex v = true → (baseTarget v).name ≠ n)

theorem chainInv_extend (n : String) (procd : List ColObj) (c : ColObj)
    (acc : Option (List ColObj) × Option ColObj)
    (h : ChainInv n procd acc)
    (hc : isVIndex c = true → (baseTarget c).name ≠ n) :
    ChainInv n (procd ++ [c]) acc := by
  constructor
  · intro ch hch
    obtain ⟨hd, hmax⟩ := h.1 ch hch
    constructor
    · rcases hd with h1 | h2 | h3
      · exact Or.inl h1
      · obtain ⟨en, he1, he2, he3⟩ := h2
        exact Or.inr (Or.inl ⟨en, he1, List.mem_append.2 (Or.inl he2), he3⟩)
      · obtain ⟨v, hv, hvi, hvb, hve⟩ := h3
        exact Or.inr (Or.inr ⟨v, List.mem_append.2 (Or.inl hv), hvi, hvb, hve⟩)
    · intro v hv hvi hvb
      rcases List.mem_append.1 hv with hvp | hvc
      · exact hmax v hvp hvi hvb
      · rw [List.mem_singleton.1 hvc] at hvi hvb
        exact absurd hvb (hc hvi)
  · intro h0 v hv hvi
    rcases List.mem_append.1 hv with hvp | hvc
    · exact h.2 h0 v hvp hvi
    · rw [List.mem_singleton.1 hvc] at hvi ⊢
      exact hc hvi

theorem nameFold_inv (n : String) :
    ∀ (cs procd : List ColObj)
      (acc : Option (List ColObj) × Option ColObj),
      ChainInv n procd acc →
      ChainInv n (procd ++ cs) (nameFold n cs acc) := by
  intro cs
  induction cs with
  | nil =>
    intro procd acc h
    rw [List.append_nil]
    exact h
  | cons c rest ih =>
    intro procd acc h
    have hassoc : procd ++ c :: rest = (procd ++ [c]) ++ rest :=
      (List.append_assoc procd [c] rest).symm
    rw [hassoc]
    cases c with
    | vindex m t =>
      simp only [nameFold]
      by_cases hb : (baseTarget (ColObj.vindex m t)).name = n
      · by_cases hlen : (ixChain (ColObj.vindex m t)).length
            > ((acc.1).getD []).length
        · rw [if_pos hb, if_pos hlen]
          apply ih
          constructor
          · intro ch hch
            injection hch with hch
            subst hch
            constructor
            · exact Or.inr (Or.inr ⟨ColObj.vindex m t,
                List.mem_append.2 (Or.inr (List.mem_singleton_self _)),
                rfl, hb, rfl⟩)
            · intro v hv hvi hvb
              rcases List.mem_append.1 hv with hvp | hvc
              · cases hacc : acc.1 with
                | none => exact absurd hvb (h.2 hacc v hvp hvi)
                | some ch0 =>
                  have hle := (h.1 ch0 hacc).2 v hvp hvi hvb
                  rw [hacc] at hlen
                  simp only [Option.getD_some] at hlen
                  exact Nat.le_trans hle (Nat.le_of_lt hlen)
              · rw [List.mem_singleton.1 hvc]
          · intro h0
            cases h0
        · rw [if_pos hb, if_neg hlen]
          apply ih
          constructor
          · intro ch hch
            obtain ⟨hd, hmax⟩ := h.1 ch hch
            constructor
            · rcases hd with h1 | h2 | h3
              · exact Or.inl h1
              · obtain ⟨en, he1, he2, he3⟩ := h2
                exact Or.inr (Or.inl ⟨en, he1,
                  List.mem_append.2 (Or.inl he2), he3⟩)
              · obtain ⟨v, hv, hvi, hvb, hve⟩ := h3
                exact Or.inr (Or.inr ⟨v, List.mem_append.2 (Or.inl hv),
                  hvi, hvb, hve⟩)
            · intro v hv hvi hvb
              rcases List.mem_append.1 hv with hvp | hvc
              · exact hmax v hvp hvi hvb
              · rw [List.mem_singleton.1 hvc]
                rw [hch] at hlen
                simp only [Option.getD_some] at hlen
                exact Nat.le_of_not_lt hlen
          · intro h0
            exfalso
            rw [h0] at hlen
            simp only [Option.getD_none, List.length_nil] at hlen
            exact hlen (ixChain_length_pos (ColObj.vindex m t))
      · rw [if_neg hb]
        exact ih (procd ++ [ColObj.vindex m t]) acc
          (chainInv_extend n procd (ColObj.vindex m t) acc h (fun _ => hb))
    | edata m en =>
      simp only [nameFold]
      by_cases hm : m = n
      · subst hm
        rw [if_pos rfl]
        cases hacc : acc.1 with
        | some ch0 =>
          simp only [hacc]
          apply ih
          exact chainInv_extend m procd (ColObj.edata m en) acc h
            (fun hvi => by simp [isVIndex] at hvi)
        | none =>
          simp only [hacc]
          apply ih
          constructor
          · intro ch hch
            injection hch with hch
            subst hch
            constructor
            · exact Or.inr (Or.inl ⟨en, rfl,
                List.mem_append.2 (Or.inr (List.mem_singleton_self _)), rfl⟩)
            · intro v hv hvi hvb
              rcases List.mem_append.1 hv with hvp | hvc
              · exact absurd hvb (h.2 hacc v hvp hvi)
              · rw [List.mem_singleton.1 hvc] at hvi
                simp [isVIndex] at hvi
          · intro h0
            cases h0
      · rw [if_neg hm]
        exact ih (procd ++ [ColObj.edata m en]) acc
          (chainInv_extend n procd (ColObj.edata m en) acc h
            (fun hvi => by simp [isVIndex] at hvi))
    | vdata m =>
      simp only [nameFold]
      by_cases hm : m = n
      · subst hm
        rw [if_pos rfl]
        cases hacc : acc.1 with
        | some ch0 =>
          simp only [hacc]
          apply ih
          exact chainInv_extend m procd (ColObj.vdata m) acc h
            (fun hvi => by simp [isVIndex] at hvi)
        | none =>
          simp only [hacc]
          apply ih
          constructor
          · intro ch hch
            injection hch with hch
            subst hch
            constructor
            · exact Or.inl rfl
            · intro v hv hvi hvb
              rcases List.mem_append.1 hv with hvp | hvc
              · exact absurd hvb (h.2 hacc v hvp hvi)
              · rw [List.mem_singleton.1 hvc] at hvi
                simp [isVIndex] at hvi
          · intro h0
            cases h0
      · rw [if_neg hm]
        exact ih (procd ++ [ColObj.vdata m]) acc
          (chainInv_extend n procd (ColObj.vdata m) acc h
            (fun hvi => by simp [isVIndex] at hvi))

/-- The counterexample columns: an `EnumData` `"e"`, a `VectorIndex`
`"e_index"` targeting it (a ragged enum column), and the elements
column, with `colnames = ["e"]`. -/
def c4cols : List ColObj :=
  [ColObj.edata "e" "elements",
   ColObj.vindex "e_index" (ColObj.edata "e" "elements"),
   ColObj.vdata "elements"]

def c4wcols : List ColObj :=
  [ColObj.vdata "a", ColObj.vindex "a_index" (ColObj.vdata "a")]

/-- C4, counterexample to the original claim: for a ragged `EnumData`
column (a `VectorIndex` targeting an `EnumData`), the stored columns
tuple drops the `VectorIndex` chain entirely — the `EnumData` claims the
`indices` entry first and the length-1 chain is not strictly longer
(table.py 415-421) — so the index column is not emitted before its
target. -/
theorem dynamicTable_colnames_order_cex :
    computeColumns c4cols ["e"]
        = some [ColObj.edata "e" "elements", ColObj.vdata "elements"] ∧
    ColObj.vindex "e_index" (ColObj.edata "e" "elements") ∈ c4cols ∧
    ColObj.vindex "e_index" (ColObj.edata "e" "elements")
      ∉ [ColObj.edata "e" "elements", ColObj.vdata "elements"] :=
  ⟨by decide, by decide, by decide⟩

/-- C4, amended: the stored columns tuple is, for each public name in
`colnames` order, the `indices` chain followed by the `col_dict` base
entry (first conjunct, every input); and when no `VectorIndex` targets an
`EnumData`, the chain stored for a name with at least one `VectorIndex`
ending at it is the full chain (outermost first, as built by the
`tmp_indices` walk) of one such `VectorIndex`, of maximal length among
them (second conjunct). -/
theorem dynamicTable_colnames_order :
    (∀ (cols : List ColObj) (colnames : List String),
      computeColumns cols colnames
        = (colnames.mapM (fun nm =>
            match
              (nameFold nm cols (Option.none, cdInitAt nm cols Option.none)).1,
              (nameFold nm cols (Option.none, cdInitAt nm cols Option.none)).2
              with
            | some chain, some base => some (chain ++ [base])
            | _, _ => Option.none)).map List.flatten) ∧
    (∀ (cols : List ColObj) (nm : String) (ch : List ColObj),
      (∀ v ∈ cols, isVIndex v = true →
        ∀ en : String, ColObj.edata (baseTarget v).name en ∉ cols) →
      (nameFold nm cols (Option.none, cdInitAt nm cols Option.none)).1
        = some ch →
      (∃ v ∈ cols, isVIndex v = true ∧ (baseTarget v).name = nm) →
      ∃ w ∈ cols, isVIndex w = true ∧ (baseTarget w).name = nm ∧
        ch = ixChain w ∧
        ∀ v ∈ cols, isVIndex v = true → (baseTarget v).name = nm →
          (ixChain v).length ≤ (ixChain w).length) := by
  refine ⟨computeColumns_perName, ?_⟩
  intro cols nm ch hnc hres hcand
  obtain ⟨v0, hv0, hv0i, hv0b⟩ := hcand
  have hbase : ChainInv nm [] (Option.none, cdInitAt nm cols Option.none) := by
    constructor
    · intro ch0 hch0
      cases hch0
    · intro _ v hv
      cases hv
  have hinv := nameFold_inv nm cols []
    (Option.none, cdInitAt nm cols Option.none) hbase
  obtain ⟨hmain, _⟩ := hinv
  obtain ⟨hd, hmax⟩ := hmain ch hres
  rcases hd with h1 | h2 | h3
  · exfalso
    have hle := hmax v0 hv0 hv0i hv0b
    rw [h1] at hle
    simp only [List.length_nil, Nat.le_zero] at hle
    have hp := ixChain_length_pos v0
    omega
  · exfalso
    obtain ⟨en, _, he2, _⟩ := h2
    exact hnc v0 hv0 hv0i en (by rw [hv0b]; exact he2)
  · obtain ⟨w, hw, hwi, hwb, hwe⟩ := h3
    refine ⟨w, hw, hwi, hwb, hwe, ?_⟩
    intro v hv hvi hvb
    have hle := hmax v hv hvi hvb
    rw [hwe] at hle
    exact hle

theorem dynamicTable_colnames_order_witness :
    ((∀ v ∈ c4wcols, isVIndex v = true →
        ∀ en : String, ColObj.edata (baseTarget v).name en ∉ c4wcols) ∧
      (nameFold "a" c4wcols (Option.none, cdInitAt "a" c4wcols Option.none)).1
        = some [ColObj.vindex "a_index" (ColObj.vdata "a")] ∧
      (∃ v ∈ c4wcols, isVIndex v = true ∧ (baseTarget v).name = "a")) ∧
    (∃ w ∈ c4wcols, isVIndex w = true ∧ (baseTarget w).name = "a" ∧
      [ColObj.vindex "a_index" (ColObj.vdata "a")] = ixChain w ∧
      ∀ v ∈ c4wcols, isVIndex v = true → (baseTarget v).name = "a" →
        (ixChain v).length ≤ (ixChain w).length) :=
  ⟨⟨by
      intro v hv hvi en hmem
      simp [c4wcols, List.mem_cons] at hmem, rfl, by decide⟩,
    dynamicTable_colnames_order.2 c4wcols "a"
      [ColObj.vindex "a_index" (ColObj.vdata "a")]
      (by
        intro v hv hvi en hmem
        simp [c4wcols, List.mem_cons] at hmem)
      rfl (by decide)⟩
